import Mathlib

/-!
Verification development for the blather streaming codec
(`src/codec.rs`, `src/types/{telegram,params,kvlines}.rs`,
`src/types/validators.rs`, `src/err.rs`).

Modelling conventions:
* Bytes are `Nat` values; buffers (`bytes::BytesMut`) are `List Nat`.
* Rust strings obtained from `std::str::from_utf8` are kept as their
  UTF-8 byte lists; `str::find(' ')` is the index of the first byte 32,
  which coincides with Rust's byte-indexed result on UTF-8 data.
* The character classes used by the validators (`char::is_alphabetic`,
  `char::is_alphanumeric`, `char::is_ascii_punctuation`) are modelled on
  the ASCII range, the alphabet the protocol's topics and keys use.
* `usize::MAX` is `2 ^ 64 - 1`; `saturating_add 1` on it equals plain
  `+ 1` followed by `min _ buf.length` for all buffer lengths that fit
  in a `usize`, so `find_newline` uses plain `Nat` addition.
* The `Box<dyn Write>` sink is abstracted to a capability: `writer` is
  `Option Unit` (handle present or dropped) and `written` is the
  cumulative list of bytes delivered to sinks via `write_all`; the
  abstract sink never fails.  `File::create` is the acquisition of such
  a sink (pathnames are byte lists).
* The iteration order of `HashMap` is modelled by association-list
  order; `HashMap::insert` replaces the value of an existing key in
  place and otherwise appends.
* `Decoder::decode` mutates `self` and the input buffer and returns
  `Result<Option<Input>>`; it is modelled as a function returning the
  final codec, the remaining buffer, and the result.  The per-mode line
  loops of `decode_telegram_lines` / `decode_params_lines` /
  `decode_kvlines` share one parametric loop `decodeLines`; the loop
  consumes at least one byte per iteration, so the structural fuel
  `buf.length + 1` supplied by the wrappers never runs out.
-/

instance {ε α : Type} [DecidableEq ε] [DecidableEq α] : DecidableEq (Except ε α) := fun x y =>
  match x, y with
  | .ok a, .ok b =>
    if h : a = b then .isTrue (by rw [h]) else .isFalse (by simp [h])
  | .error a, .error b =>
    if h : a = b then .isTrue (by rw [h]) else .isFalse (by simp [h])
  | .ok _, .error _ => .isFalse (by simp)
  | .error _, .ok _ => .isFalse (by simp)

/-- `crate::err::Error`. -/
inductive Err where
  | KeyNotFound (s : String)
  | BadFormat (s : String)
  | SerializeError (s : String)
  | IOErr (s : String)
  | BadState (s : String)
  | InvalidSize (s : String)
deriving DecidableEq, Repr

/-- `HashMap::insert`: replace the value of an existing key in place,
otherwise append the new pair. -/
def hmInsert : List (List Nat × List Nat) → List Nat → List Nat → List (List Nat × List Nat)
  | [], k, v => [(k, v)]
  | (k₀, v₀) :: t, k, v => if k₀ = k then (k, v) :: t else (k₀, v₀) :: hmInsert t k v

/-- `HashMap::get` (first matching key). -/
def hmLookup : List (List Nat × List Nat) → List Nat → Option (List Nat)
  | [], _ => none
  | (k₀, v₀) :: t, k => if k₀ = k then some v₀ else hmLookup t k

/-- `HashMap::contains_key`. -/
def hmContains : List (List Nat × List Nat) → List Nat → Bool
  | [], _ => false
  | (k₀, _) :: t, k => k₀ = k || hmContains t k

/-- `Params`: unique-key string map (`src/types/params.rs`). -/
structure Params where
  hm : List (List Nat × List Nat)
deriving DecidableEq, Repr

def Params.new : Params := ⟨[]⟩

/-- `KVLines`: ordered key/value list (`src/types/kvlines.rs`). -/
structure KVLines where
  lines : List (List Nat × List Nat)
deriving DecidableEq, Repr

def KVLines.new : KVLines := ⟨[]⟩

/-- `KVLines::append`: push unconditionally, no validation. -/
def KVLines.append (l : KVLines) (k v : List Nat) : KVLines :=
  ⟨l.lines ++ [(k, v)]⟩

/-- `Telegram`: optional topic plus parameters (`src/types/telegram.rs`). -/
structure Telegram where
  topic : Option (List Nat)
  params : Params
deriving DecidableEq, Repr

def Telegram.new : Telegram := ⟨none, Params.new⟩

/-- `validators::is_topic_leading_char` (`char::is_alphabetic`, ASCII range). -/
def is_topic_leading_char (b : Nat) : Bool :=
  (65 ≤ b && b ≤ 90) || (97 ≤ b && b ≤ 122)

/-- ASCII digit. -/
def isDigitByte (b : Nat) : Bool := 48 ≤ b && b ≤ 57

/-- `validators::is_topic_char` (`char::is_alphanumeric` or `_` or `-`). -/
def is_topic_char (b : Nat) : Bool :=
  is_topic_leading_char b || isDigitByte b || b == 95 || b == 45

/-- `char::is_ascii_punctuation`. -/
def isAsciiPunct (b : Nat) : Bool :=
  (33 ≤ b && b ≤ 47) || (58 ≤ b && b ≤ 64) || (91 ≤ b && b ≤ 96) || (123 ≤ b && b ≤ 126)

/-- `validators::is_key_char` (`char::is_alphanumeric` or ASCII punctuation). -/
def is_key_char (b : Nat) : Bool :=
  is_topic_leading_char b || isDigitByte b || isAsciiPunct b

/-- `validators::validate_topic`. -/
def validate_topic (topic : List Nat) : Except Err Unit :=
  match topic with
  | [] => .error (.BadFormat "Empty or broken topic")
  | c :: rest =>
    if !is_topic_leading_char c then
      .error (.BadFormat "Invalid leading topic character")
    else if rest.any (fun c => !is_topic_char c) then
      .error (.BadFormat "Invalid topic character")
    else .ok ()

/-- `validators::validate_param_key`. -/
def validate_param_key (key : List Nat) : Except Err Unit :=
  match key with
  | [] => .error (.BadFormat "Empty or broken key")
  | c :: rest =>
    if !is_key_char c then
      .error (.BadFormat "Invalid key character")
    else if rest.any (fun c => !is_key_char c) then
      .error (.BadFormat "Invalid key character")
    else .ok ()

/-- `Params::add_param`: validate the key, then insert (overwriting). -/
def Params.add_param (p : Params) (k v : List Nat) : Except Err Params :=
  match validate_param_key k with
  | .error e => .error e
  | .ok _ => .ok ⟨hmInsert p.hm k v⟩

/-- `Telegram::set_topic`: validate, then overwrite the topic. -/
def Telegram.set_topic (tg : Telegram) (topic : List Nat) : Except Err Telegram :=
  match validate_topic topic with
  | .error e => .error e
  | .ok _ => .ok { tg with topic := some topic }

/-- UTF-8 continuation byte. -/
def isCont (b : Nat) : Bool := 128 ≤ b && b ≤ 191

/-- Structural validity of a UTF-8 byte sequence, as checked by
`std::str::from_utf8` (RFC 3629 table). -/
def utf8Valid : List Nat → Bool
  | [] => true
  | b :: rest =>
    if b ≤ 127 then utf8Valid rest
    else if 194 ≤ b && b ≤ 223 then
      match rest with
      | c1 :: r => isCont c1 && utf8Valid r
      | [] => false
    else if b == 224 then
      match rest with
      | c1 :: c2 :: r => (160 ≤ c1 && c1 ≤ 191) && isCont c2 && utf8Valid r
      | _ => false
    else if (225 ≤ b && b ≤ 236) || b == 238 || b == 239 then
      match rest with
      | c1 :: c2 :: r => isCont c1 && isCont c2 && utf8Valid r
      | _ => false
    else if b == 237 then
      match rest with
      | c1 :: c2 :: r => (128 ≤ c1 && c1 ≤ 159) && isCont c2 && utf8Valid r
      | _ => false
    else if b == 240 then
      match rest with
      | c1 :: c2 :: c3 :: r =>
        (144 ≤ c1 && c1 ≤ 191) && isCont c2 && isCont c3 && utf8Valid r
      | _ => false
    else if 241 ≤ b && b ≤ 243 then
      match rest with
      | c1 :: c2 :: c3 :: r => isCont c1 && isCont c2 && isCont c3 && utf8Valid r
      | _ => false
    else if b == 244 then
      match rest with
      | c1 :: c2 :: c3 :: r =>
        (128 ≤ c1 && c1 ≤ 143) && isCont c2 && isCont c3 && utf8Valid r
      | _ => false
    else false

/-- `codec::without_carriage_return`: strip one trailing `\r`. -/
def without_carriage_return (s : List Nat) : List Nat :=
  if s.getLast? = some 13 then s.dropLast else s

/-- `codec::CodecState`. -/
inductive CodecState where
  | Telegram
  | Params
  | KVLines
  | Chunks
  | Bytes
  | BytesMut
  | File
  | Writer
  | Skip
deriving DecidableEq, Repr

/-- `codec::Input`: data the decoder hands to the application. -/
inductive Input where
  | Telegram (tg : Telegram)
  | KVLines (kv : KVLines)
  | Params (p : Params)
  | Chunk (chunk : List Nat) (remain : Nat)
  | Bytes (b : List Nat)
  | BytesMut (b : List Nat)
  | File (pathname : List Nat)
  | WriteDone
  | SkipDone
deriving DecidableEq, Repr

/-- `codec::Codec`: the decoder session state. -/
structure Codec where
  next_line_index : Nat
  max_line_length : Nat
  tg : Telegram
  params : Params
  kvlines : KVLines
  state : CodecState
  bin_remain : Nat
  pathname : Option (List Nat)
  writer : Option Unit
  written : List Nat
  buf : List Nat
deriving DecidableEq, Repr

/-- `Codec::new` (`max_line_length` defaults to `usize::MAX`). -/
def Codec.new : Codec :=
  { next_line_index := 0
    max_line_length := 2 ^ 64 - 1
    tg := Telegram.new
    params := Params.new
    kvlines := KVLines.new
    state := .Telegram
    bin_remain := 0
    pathname := none
    writer := none
    written := []
    buf := [] }

/-- `Codec::new_with_max_length`. -/
def Codec.new_with_max_length (m : Nat) : Codec :=
  { Codec.new with max_line_length := m }

/-- `Iterator::position` / `str::find` on a byte list. -/
def listPos (p : Nat → Bool) : List Nat → Option Nat
  | [] => none
  | a :: l => if p a then some 0 else (listPos p l).map (· + 1)

/-- `Codec::find_newline`: window `[next_line_index, min(max+1, len))`. -/
def Codec.find_newline (c : Codec) (buf : List Nat) : Nat × Option Nat :=
  let read_to := min (c.max_line_length + 1) buf.length
  (read_to, listPos (fun b => b == 10) ((buf.take read_to).drop c.next_line_index))

/-- `Codec::get_eol_idx`. -/
def Codec.get_eol_idx (c : Codec) (buf : List Nat) : Codec × Except Err (Option Nat) :=
  let (read_to, newline_offset) := c.find_newline buf
  match newline_offset with
  | some offset =>
    ({ c with next_line_index := 0 }, .ok (some (offset + c.next_line_index + 1)))
  | none =>
    if buf.length > c.max_line_length then
      (c, .error (.BadFormat "Exceeded maximum line length."))
    else
      ({ c with next_line_index := read_to }, .ok none)

/-- `Codec::decode_telegram_line`: first line is the topic, later lines
split at the first space and go through `Telegram::add_param`. -/
def decode_telegram_line (c : Codec) (line : List Nat) : Except Err Codec :=
  if c.tg.topic.isNone then
    match c.tg.set_topic line with
    | .error e => .error e
    | .ok tg => .ok { c with tg := tg }
  else
    match listPos (fun b => b == 32) line with
    | some idx =>
      match c.tg.params.add_param (line.take idx) ((line.drop idx).drop 1) with
      | .error e => .error e
      | .ok ps => .ok { c with tg := { c.tg with params := ps } }
    | none => .ok c

/-- Per-line step of `Codec::decode_params_lines`. -/
def decode_params_line (c : Codec) (line : List Nat) : Except Err Codec :=
  match listPos (fun b => b == 32) line with
  | some idx =>
    match c.params.add_param (line.take idx) ((line.drop idx).drop 1) with
    | .error e => .error e
    | .ok ps => .ok { c with params := ps }
  | none => .ok c

/-- Per-line step of `Codec::decode_kvlines`. -/
def decode_kv_line (c : Codec) (line : List Nat) : Except Err Codec :=
  match listPos (fun b => b == 32) line with
  | some idx =>
    .ok { c with kvlines := c.kvlines.append (line.take idx) ((line.drop idx).drop 1) }
  | none => .ok c

/-- The shared line loop of `decode_telegram_lines`, `decode_params_lines`
and `decode_kvlines`: pull one terminated line at a time, strip `\r`,
check UTF-8, finish on the empty line, otherwise handle the line and
continue.  Each iteration consumes `idx ≥ 1` bytes, so the wrappers'
fuel `buf.length + 1` is never exhausted. -/
def decodeLines (onLine : Codec → List Nat → Except Err Codec)
    (onEmpty : Codec → Codec × Input) :
    Nat → Codec → List Nat → Codec × List Nat × Except Err (Option Input)
  | 0, c, buf => (c, buf, .error (.BadState "line loop fuel exhausted"))
  | fuel + 1, c, buf =>
    match c.get_eol_idx buf with
    | (c₁, .error e) => (c₁, buf, .error e)
    | (c₁, .ok none) => (c₁, buf, .ok none)
    | (c₁, .ok (some idx)) =>
      let line := without_carriage_return ((buf.take idx).dropLast)
      let buf' := buf.drop idx
      if utf8Valid line then
        if line.isEmpty then
          let (c₂, v) := onEmpty c₁
          (c₂, buf', .ok (some v))
        else
          match onLine c₁ line with
          | .error e => (c₁, buf', .error e)
          | .ok c₂ => decodeLines onLine onEmpty fuel c₂ buf'
      else (c₁, buf', .error (.IOErr "Unable to decode input as UTF8"))

/-- Frame completion of `decode_telegram_lines`: take the telegram,
leave a fresh one (the state stays `Telegram`). -/
def telegramOnEmpty (c : Codec) : Codec × Input :=
  ({ c with tg := Telegram.new }, .Telegram c.tg)

/-- Frame completion of `decode_params_lines`: revert to `Telegram`,
take the params. -/
def paramsOnEmpty (c : Codec) : Codec × Input :=
  ({ c with state := .Telegram, params := Params.new }, .Params c.params)

/-- Frame completion of `decode_kvlines`: revert to `Telegram`, take
the key/value lines. -/
def kvOnEmpty (c : Codec) : Codec × Input :=
  ({ c with state := .Telegram, kvlines := KVLines.new }, .KVLines c.kvlines)

/-- The line loop with its adequate fuel `buf.length + 1`. -/
def runLines (onLine : Codec → List Nat → Except Err Codec)
    (onEmpty : Codec → Codec × Input) (c : Codec) (buf : List Nat) :
    Codec × List Nat × Except Err (Option Input) :=
  decodeLines onLine onEmpty (buf.length + 1) c buf

/-- `Codec::decode_telegram_lines`. -/
def decode_telegram_lines (c : Codec) (buf : List Nat) :
    Codec × List Nat × Except Err (Option Input) :=
  runLines decode_telegram_line telegramOnEmpty c buf

/-- `Codec::decode_params_lines`. -/
def decode_params_lines (c : Codec) (buf : List Nat) :
    Codec × List Nat × Except Err (Option Input) :=
  runLines decode_params_line paramsOnEmpty c buf

/-- `Codec::decode_kvlines`. -/
def decode_kvlines (c : Codec) (buf : List Nat) :
    Codec × List Nat × Except Err (Option Input) :=
  runLines decode_kv_line kvOnEmpty c buf

/-- `Decoder::decode` for `Codec`: final codec, remaining input buffer,
and the call's result. -/
def decode (c : Codec) (buf : List Nat) : Codec × List Nat × Except Err (Option Input) :=
  match c.state with
  | .Telegram => decode_telegram_lines c buf
  | .Params => decode_params_lines c buf
  | .KVLines => decode_kvlines c buf
  | .Chunks =>
    if buf.isEmpty then (c, buf, .ok none)
    else
      let read_to := min c.bin_remain buf.length
      let c₁ := { c with bin_remain := c.bin_remain - read_to }
      let c₂ := if c₁.bin_remain = 0 then { c₁ with state := .Telegram } else c₁
      (c₂, buf.drop read_to, .ok (some (.Chunk (buf.take read_to) c₂.bin_remain)))
  | .Bytes =>
    if buf.isEmpty then (c, buf, .ok none)
    else
      let read_to := min c.bin_remain buf.length
      let c₁ := { c with buf := c.buf ++ buf.take read_to,
                         bin_remain := c.bin_remain - read_to }
      if c₁.bin_remain ≠ 0 then (c₁, buf.drop read_to, .ok none)
      else
        ({ c₁ with state := .Telegram, buf := [] }, buf.drop read_to,
          .ok (some (.Bytes c₁.buf)))
  | .BytesMut =>
    if buf.isEmpty then (c, buf, .ok none)
    else
      let read_to := min c.bin_remain buf.length
      let c₁ := { c with buf := c.buf ++ buf.take read_to,
                         bin_remain := c.bin_remain - read_to }
      if c₁.bin_remain ≠ 0 then (c₁, buf.drop read_to, .ok none)
      else
        ({ c₁ with state := .Telegram, buf := [] }, buf.drop read_to,
          .ok (some (.BytesMut c₁.buf)))
  | .File | .Writer =>
    if buf.isEmpty then (c, buf, .ok none)
    else
      let read_to := min c.bin_remain buf.length
      let c₁ : Codec :=
        match c.writer with
        | some _ => { c with written := c.written ++ buf.take read_to }
        | none => c
      let rem : List Nat :=
        match c.writer with
        | some _ => buf.drop read_to
        | none => buf
      let c₂ := { c₁ with bin_remain := c₁.bin_remain - read_to }
      if c₂.bin_remain ≠ 0 then (c₂, rem, .ok none)
      else
        let c₃ := { c₂ with writer := none }
        match c₃.state with
        | .File =>
          match c₃.pathname with
          | some p =>
            ({ c₃ with pathname := none, state := .Telegram }, rem, .ok (some (.File p)))
          | none => (c₃, rem, .error (.BadState "Missing pathname"))
        | _ => ({ c₃ with state := .Telegram }, rem, .ok (some .WriteDone))
  | .Skip =>
    if buf.isEmpty then (c, buf, .ok none)
    else
      let read_to := min c.bin_remain buf.length
      let c₁ := { c with bin_remain := c.bin_remain - read_to }
      if c₁.bin_remain ≠ 0 then (c₁, buf.drop read_to, .ok none)
      else ({ c₁ with state := .Telegram }, buf.drop read_to, .ok (some .SkipDone))

/-- `Codec::expect_chunks` — note: no zero-size check in the source;
its Rust signature returns `()`, not `Result`. -/
def Codec.expect_chunks (c : Codec) (size : Nat) : Codec :=
  { c with state := .Chunks, bin_remain := size }

/-- `Codec::expect_bytes`: reject size 0 before any state change. -/
def Codec.expect_bytes (c : Codec) (size : Nat) : Codec × Option Err :=
  if size = 0 then (c, some (.InvalidSize "The size must not be zero"))
  else ({ c with state := .Bytes, bin_remain := size, buf := [] }, none)

/-- `Codec::expect_bytesmut`: reject size 0 before any state change. -/
def Codec.expect_bytesmut (c : Codec) (size : Nat) : Codec × Option Err :=
  if size = 0 then (c, some (.InvalidSize "The size must not be zero"))
  else ({ c with state := .BytesMut, bin_remain := size, buf := [] }, none)

/-- `Codec::expect_file`: reject size 0, then open the sink and record
the pathname. -/
def Codec.expect_file (c : Codec) (pathname : List Nat) (size : Nat) : Codec × Option Err :=
  if size = 0 then (c, some (.InvalidSize "The size must not be zero"))
  else ({ c with state := .File, writer := some (), pathname := some pathname,
                  bin_remain := size }, none)

/-- `Codec::expect_writer`: reject size 0, then take the sink. -/
def Codec.expect_writer (c : Codec) (size : Nat) : Codec × Option Err :=
  if size = 0 then (c, some (.InvalidSize "The size must not be zero"))
  else ({ c with state := .Writer, writer := some (), bin_remain := size }, none)

/-- `Codec::expect_params`. -/
def Codec.expect_params (c : Codec) : Codec := { c with state := .Params }

/-- `Codec::expect_kvlines`. -/
def Codec.expect_kvlines (c : Codec) : Codec := { c with state := .KVLines }

/-- `Codec::skip`: reject size 0, then switch to discard mode. -/
def Codec.skip (c : Codec) (size : Nat) : Codec × Option Err :=
  if size = 0 then (c, some (.InvalidSize "The size must not be zero"))
  else ({ c with state := .Skip, bin_remain := size }, none)

/-- The host framing loop: append each newly arrived segment to the
input buffer and call `decode` once per arrival, stopping at the first
error and collecting each call's result. -/
def feed : Codec → List Nat → List (List Nat) →
    Except Err (Codec × List Nat × List (Option Input))
  | c, pending, [] => .ok (c, pending, [])
  | c, pending, s :: rest =>
    match decode c (pending ++ s) with
    | (_, _, .error e) => .error e
    | (c', pending', .ok out) =>
      match feed c' pending' rest with
      | .error e => .error e
      | .ok (c'', p'', outs) => .ok (c'', p'', out :: outs)

/-- The chunk stream emitted in `Chunks` mode when each call's input is
consumed whole: one chunk per segment, with the running remaining count. -/
def chunkOutputs : Nat → List (List Nat) → List (Option Input)
  | _, [] => []
  | remain, s :: rest =>
    some (.Chunk s (remain - s.length)) :: chunkOutputs (remain - s.length) rest

/-- The serialized form of a key/value pair list: `key SP value LF` per
entry (shared by `Telegram::serialize` / `Telegram::encoder_write`). -/
def kvWire : List (List Nat × List Nat) → List Nat
  | [] => []
  | (k, v) :: t => k ++ [32] ++ v ++ [10] ++ kvWire t

/-- `Telegram::serialize`: missing topic is `BadFormat("Missing heading")`. -/
def Telegram.serialize (tg : Telegram) : Except Err (List Nat) :=
  match tg.topic with
  | none => .error (.BadFormat "Missing heading")
  | some t => .ok (t ++ [10] ++ kvWire tg.params.hm ++ [10])

/-- `Telegram::encoder_write`: missing topic is
`SerializeError("Missing Telegram topic")`; otherwise append the wire
form to the output buffer. -/
def Telegram.encoder_write (tg : Telegram) (buf : List Nat) : Except Err (List Nat) :=
  match tg.topic with
  | none => .error (.SerializeError "Missing Telegram topic")
  | some t => .ok (buf ++ t ++ [10] ++ kvWire tg.params.hm ++ [10])

/-! ## List helper lemmas -/

theorem getD0_drop (l : List Nat) (n j : Nat) : (l.drop n).getD j 0 = l.getD (n + j) 0 := by
  induction n generalizing l with
  | zero => simp
  | succ n ih =>
    cases l with
    | nil => simp [List.getD]
    | cons a t =>
      have : n + 1 + j = (n + j) + 1 := by omega
      simp only [List.drop_succ_cons, this, List.getD_cons_succ]
      exact ih t

theorem getD0_take (l : List Nat) {n j : Nat} (h : j < n) : (l.take n).getD j 0 = l.getD j 0 := by
  simp only [List.getD_eq_getElem?_getD]
  rw [List.getElem?_take]
  simp [h]

theorem getD0_append_left (l m : List Nat) {j : Nat} (h : j < l.length) :
    (l ++ m).getD j 0 = l.getD j 0 := by
  simp only [List.getD_eq_getElem?_getD]
  rw [List.getElem?_append_left h]

theorem getD0_mem {l : List Nat} {j : Nat} (h : j < l.length) : l.getD j 0 ∈ l := by
  rw [List.getD_eq_getElem?_getD, List.getElem?_eq_getElem h]
  exact List.getElem_mem h

theorem listPos_eq_some_iff {p : Nat → Bool} {l : List Nat} {i : Nat} :
    listPos p l = some i ↔
      i < l.length ∧ p (l.getD i 0) = true ∧ ∀ j, j < i → p (l.getD j 0) = false := by
  induction l generalizing i with
  | nil => simp [listPos]
  | cons a t ih =>
    by_cases hpa : p a
    · simp only [listPos, hpa, if_pos]
      constructor
      · rintro h
        injection h with h
        subst h
        exact ⟨by simp, by simpa using hpa, by omega⟩
      · rintro ⟨-, -, hmin⟩
        cases i with
        | zero => rfl
        | succ i =>
          have := hmin 0 (by omega)
          simp [hpa] at this
    · simp only [listPos, hpa, if_neg, Bool.false_eq_true, not_false_iff, Option.map_eq_some']
      constructor
      · rintro ⟨i', hi', rfl⟩
        obtain ⟨h1, h2, h3⟩ := ih.mp hi'
        refine ⟨by simpa using h1, by simpa using h2, ?_⟩
        intro j hj
        cases j with
        | zero => simpa using hpa
        | succ j => simpa using h3 j (by omega)
      · rintro ⟨h1, h2, h3⟩
        cases i with
        | zero => simp at h2; exact absurd h2 hpa
        | succ i =>
          refine ⟨i, ih.mpr ⟨by simpa using h1, by simpa using h2, ?_⟩, rfl⟩
          intro j hj
          simpa using h3 (j + 1) (by omega)

theorem listPos_eq_none_iff {p : Nat → Bool} {l : List Nat} :
    listPos p l = none ↔ ∀ j, j < l.length → p (l.getD j 0) = false := by
  induction l with
  | nil => simp [listPos]
  | cons a t ih =>
    by_cases hpa : p a
    · simp only [listPos, hpa, if_pos]
      constructor
      · intro h; exact absurd h (by simp)
      · intro h
        have := h 0 (by simp)
        simp [hpa] at this
    · simp only [listPos, hpa, if_neg, Bool.false_eq_true, not_false_iff, Option.map_eq_none']
      rw [ih]
      constructor
      · intro h j hj
        cases j with
        | zero => simpa using hpa
        | succ j => simpa using h j (by simpa using hj)
      · intro h j hj
        simpa using h (j + 1) (by simpa using hj)

/-! ## Window characterization of the line scanner -/

/-- The newline search window upper bound of `find_newline`. -/
def eolWindow (c : Codec) (buf : List Nat) : Nat :=
  min (c.max_line_length + 1) buf.length

/-- There is no `\n` in the scanner window `[next_line_index, eolWindow)`. -/
def windowFree (c : Codec) (buf : List Nat) : Prop :=
  ∀ j, c.next_line_index ≤ j → j < eolWindow c buf → buf.getD j 0 ≠ 10

/-- `o` is the first `\n` of the scanner window. -/
def foundAt (c : Codec) (buf : List Nat) (o : Nat) : Prop :=
  c.next_line_index ≤ o ∧ o < eolWindow c buf ∧ buf.getD o 0 = 10 ∧
    ∀ j, c.next_line_index ≤ j → j < o → buf.getD j 0 ≠ 10

theorem eolWindow_le_length (c : Codec) (buf : List Nat) : eolWindow c buf ≤ buf.length :=
  min_le_right _ _

/-- Element transfer between the scanned slice and the buffer. -/
theorem slice_getD (c : Codec) (buf : List Nat) {j : Nat}
    (h : c.next_line_index + j < eolWindow c buf) :
    ((buf.take (eolWindow c buf)).drop c.next_line_index).getD j 0
      = buf.getD (c.next_line_index + j) 0 := by
  rw [getD0_drop, getD0_take _ h]

theorem slice_length (c : Codec) (buf : List Nat) :
    ((buf.take (eolWindow c buf)).drop c.next_line_index).length
      = eolWindow c buf - c.next_line_index := by
  have := eolWindow_le_length c buf
  simp [List.length_drop, List.length_take]
  omega

theorem find_newline_eq (c : Codec) (buf : List Nat) :
    c.find_newline buf
      = (eolWindow c buf,
          listPos (fun b => b == 10) ((buf.take (eolWindow c buf)).drop c.next_line_index)) :=
  rfl

theorem get_eol_eq_found {c : Codec} {buf : List Nat} {o : Nat} (h : foundAt c buf o) :
    c.get_eol_idx buf = ({ c with next_line_index := 0 }, .ok (some (o + 1))) := by
  obtain ⟨h1, h2, h3, h4⟩ := h
  have hpos : listPos (fun b => b == 10)
      ((buf.take (eolWindow c buf)).drop c.next_line_index) = some (o - c.next_line_index) := by
    rw [listPos_eq_some_iff]
    refine ⟨?_, ?_, ?_⟩
    · rw [slice_length]; omega
    · rw [slice_getD c buf (by omega : c.next_line_index + (o - c.next_line_index) < _)]
      have : c.next_line_index + (o - c.next_line_index) = o := by omega
      rw [this, h3]; rfl
    · intro j hj
      rw [slice_getD c buf (by omega : c.next_line_index + j < _)]
      have := h4 (c.next_line_index + j) (by omega) (by omega)
      simpa using this
  unfold Codec.get_eol_idx
  rw [find_newline_eq]
  simp only [hpos]
  have : o - c.next_line_index + c.next_line_index + 1 = o + 1 := by omega
  rw [this]

theorem get_eol_eq_needmore {c : Codec} {buf : List Nat} (h : windowFree c buf)
    (hlen : buf.length ≤ c.max_line_length) :
    c.get_eol_idx buf = ({ c with next_line_index := buf.length }, .ok none) := by
  have hw : eolWindow c buf = buf.length := by
    unfold eolWindow; omega
  have hpos : listPos (fun b => b == 10)
      ((buf.take (eolWindow c buf)).drop c.next_line_index) = none := by
    rw [listPos_eq_none_iff]
    intro j hj
    rw [slice_length] at hj
    rw [slice_getD c buf (by omega : c.next_line_index + j < _)]
    have := h (c.next_line_index + j) (by omega) (by omega)
    simpa using this
  unfold Codec.get_eol_idx
  rw [find_newline_eq]
  simp only [hpos]
  rw [if_neg (by omega), hw]

theorem get_eol_eq_overlong {c : Codec} {buf : List Nat} (h : windowFree c buf)
    (hlen : c.max_line_length < buf.length) :
    c.get_eol_idx buf = (c, .error (.BadFormat "Exceeded maximum line length.")) := by
  have hpos : listPos (fun b => b == 10)
      ((buf.take (eolWindow c buf)).drop c.next_line_index) = none := by
    rw [listPos_eq_none_iff]
    intro j hj
    rw [slice_length] at hj
    rw [slice_getD c buf (by omega : c.next_line_index + j < _)]
    have := h (c.next_line_index + j) (by omega) (by omega)
    simpa using this
  unfold Codec.get_eol_idx
  rw [find_newline_eq]
  simp only [hpos]
  rw [if_pos (by omega)]

theorem get_eol_cases (c : Codec) (buf : List Nat) :
    (∃ o, foundAt c buf o ∧
        c.get_eol_idx buf = ({ c with next_line_index := 0 }, .ok (some (o + 1))))
    ∨ (windowFree c buf ∧
        ((buf.length ≤ c.max_line_length ∧
            c.get_eol_idx buf = ({ c with next_line_index := buf.length }, .ok none))
          ∨ (c.max_line_length < buf.length ∧
            c.get_eol_idx buf = (c, .error (.BadFormat "Exceeded maximum line length."))))) := by
  rcases hpos : listPos (fun b => b == 10)
      ((buf.take (eolWindow c buf)).drop c.next_line_index) with _ | off
  · have hfree : windowFree c buf := by
      intro j h1 h2
      have := listPos_eq_none_iff.mp hpos (j - c.next_line_index) (by rw [slice_length]; omega)
      rw [slice_getD c buf (by omega : c.next_line_index + (j - c.next_line_index) < _)] at this
      have he : c.next_line_index + (j - c.next_line_index) = j := by omega
      rw [he] at this
      simpa using this
    right
    refine ⟨hfree, ?_⟩
    by_cases hlen : buf.length ≤ c.max_line_length
    · exact Or.inl ⟨hlen, get_eol_eq_needmore hfree hlen⟩
    · exact Or.inr ⟨by omega, get_eol_eq_overlong hfree (by omega)⟩
  · obtain ⟨h1, h2, h3⟩ := listPos_eq_some_iff.mp hpos
    rw [slice_length] at h1
    left
    refine ⟨c.next_line_index + off, ?_, ?_⟩
    · refine ⟨by omega, by omega, ?_, ?_⟩
      · rw [slice_getD c buf (by omega)] at h2
        simpa using h2
      · intro j hj1 hj2
        have := h3 (j - c.next_line_index) (by omega)
        rw [slice_getD c buf (by omega : c.next_line_index + (j - c.next_line_index) < _)] at this
        have he : c.next_line_index + (j - c.next_line_index) = j := by omega
        rw [he] at this
        simpa using this
    · refine get_eol_eq_found ⟨by omega, by omega, ?_, ?_⟩
      · rw [slice_getD c buf (by omega)] at h2
        simpa using h2
      · intro j hj1 hj2
        have := h3 (j - c.next_line_index) (by omega)
        rw [slice_getD c buf (by omega : c.next_line_index + (j - c.next_line_index) < _)] at this
        have he : c.next_line_index + (j - c.next_line_index) = j := by omega
        rw [he] at this
        simpa using this

theorem foundAt_bounds {c : Codec} {buf : List Nat} {o : Nat} (h : foundAt c buf o) :
    o < buf.length ∧ o ≤ c.max_line_length := by
  obtain ⟨-, h2, -, -⟩ := h
  unfold eolWindow at h2
  omega

theorem foundAt_append_left {c : Codec} {p q : List Nat} {o : Nat}
    (h : foundAt c (p ++ q) o) (ho : o < p.length) : foundAt c p o := by
  obtain ⟨h1, h2, h3, h4⟩ := h
  refine ⟨h1, ?_, ?_, ?_⟩
  · unfold eolWindow at h2 ⊢
    simp only [List.length_append] at h2
    omega
  · rw [getD0_append_left p q ho] at h3
    exact h3
  · intro j hj1 hj2
    have := h4 j hj1 hj2
    rw [getD0_append_left p q (by omega)] at this
    exact this

theorem foundAt_append_extend {c : Codec} {p e : List Nat} {o : Nat}
    (h : foundAt c p o) : foundAt c (p ++ e) o := by
  obtain ⟨h1, h2, h3, h4⟩ := h
  have hop : o < p.length := by
    unfold eolWindow at h2; omega
  refine ⟨h1, ?_, ?_, ?_⟩
  · unfold eolWindow at h2 ⊢
    simp only [List.length_append]
    omega
  · rw [getD0_append_left p e hop]
    exact h3
  · intro j hj1 hj2
    rw [getD0_append_left p e (by omega)]
    exact h4 j hj1 hj2

theorem windowFree_of_found_ge {c : Codec} {p q : List Nat} {o : Nat}
    (h : foundAt c (p ++ q) o) (ho : p.length ≤ o) :
    windowFree c p ∧ p.length ≤ c.max_line_length := by
  obtain ⟨h1, h2, h3, h4⟩ := h
  have hmax : o ≤ c.max_line_length := by
    unfold eolWindow at h2; omega
  constructor
  · intro j hj1 hj2
    have hjp : j < p.length := by
      unfold eolWindow at hj2; omega
    have := h4 j hj1 (by omega)
    rw [getD0_append_left p q hjp] at this
    exact this
  · omega

theorem get_eol_some_inv {c c' : Codec} {buf : List Nat} {idx : Nat}
    (h : c.get_eol_idx buf = (c', .ok (some idx))) :
    ∃ o, idx = o + 1 ∧ foundAt c buf o ∧ c' = { c with next_line_index := 0 } := by
  rcases get_eol_cases c buf with ⟨o, hf, he⟩ | ⟨-, ⟨-, he⟩ | ⟨-, he⟩⟩
  · rw [he] at h
    obtain ⟨h1, h2⟩ := Prod.mk.injEq .. ▸ h
    injection h2 with h2
    injection h2 with h2
    exact ⟨o, h2.symm, hf, h1.symm⟩
  · rw [he] at h
    simp at h
  · rw [he] at h
    simp at h

theorem get_eol_none_inv {c c' : Codec} {buf : List Nat}
    (h : c.get_eol_idx buf = (c', .ok none)) :
    windowFree c buf ∧ buf.length ≤ c.max_line_length
      ∧ c' = { c with next_line_index := buf.length } := by
  rcases get_eol_cases c buf with ⟨o, hf, he⟩ | ⟨hw, ⟨hl, he⟩ | ⟨hl, he⟩⟩
  · rw [he] at h
    simp at h
  · rw [he] at h
    obtain ⟨h1, -⟩ := Prod.mk.injEq .. ▸ h
    exact ⟨hw, hl, h1.symm⟩
  · rw [he] at h
    simp at h

theorem get_eol_err_inv {c c' : Codec} {buf : List Nat} {e : Err}
    (h : c.get_eol_idx buf = (c', .error e)) :
    windowFree c buf ∧ c.max_line_length < buf.length ∧ c' = c
      ∧ e = .BadFormat "Exceeded maximum line length." := by
  rcases get_eol_cases c buf with ⟨o, hf, he⟩ | ⟨hw, ⟨hl, he⟩ | ⟨hl, he⟩⟩
  · rw [he] at h
    simp at h
  · rw [he] at h
    simp at h
  · rw [he] at h
    obtain ⟨h1, h2⟩ := Prod.mk.injEq .. ▸ h
    injection h2 with h2
    exact ⟨hw, hl, h1.symm, h2.symm⟩

/-- Moving the resume cursor forward over a stretch known to be
newline-free does not change the scanner's verdict; on a non-error
verdict even the full scanner output coincides. -/
theorem get_eol_skip {c : Codec} {buf : List Nat} {n : Nat}
    (hc : c.next_line_index ≤ n)
    (hfree : ∀ j, c.next_line_index ≤ j → j < n → buf.getD j 0 ≠ 10) :
    ((c.get_eol_idx buf).2 = (({ c with next_line_index := n }).get_eol_idx buf).2)
    ∧ (∀ r, (({ c with next_line_index := n }).get_eol_idx buf).2 = .ok r →
        c.get_eol_idx buf = ({ c with next_line_index := n }).get_eol_idx buf) := by
  set c₁ : Codec := { c with next_line_index := n } with hc₁
  rcases get_eol_cases c₁ buf with ⟨o, hf, he⟩ | ⟨hw, ⟨hl, he⟩ | ⟨hl, he⟩⟩
  · -- the shifted scanner finds the first newline at `o ≥ n`
    obtain ⟨h1, h2, h3, h4⟩ := hf
    have hfound : foundAt c buf o := by
      refine ⟨by simp [hc₁] at h1; omega, by simpa [hc₁, eolWindow] using h2, h3, ?_⟩
      intro j hj1 hj2
      by_cases hjn : j < n
      · exact hfree j hj1 hjn
      · exact h4 j (by simp [hc₁]; omega) hj2
    have heq : c.get_eol_idx buf = ({ c with next_line_index := 0 }, .ok (some (o + 1))) :=
      get_eol_eq_found hfound
    have heq₁ : ({ c with next_line_index := 0 } : Codec) = { c₁ with next_line_index := 0 } := by
      simp [hc₁]
    constructor
    · rw [heq, he]
    · intro r _
      rw [heq, he, heq₁]
  · -- shifted scanner needs more data
    have hwc : windowFree c buf := by
      intro j hj1 hj2
      by_cases hjn : j < n
      · exact hfree j hj1 hjn
      · exact hw j (by simp [hc₁]; omega) (by simpa [hc₁, eolWindow] using hj2)
    have heq : c.get_eol_idx buf = ({ c with next_line_index := buf.length }, .ok none) :=
      get_eol_eq_needmore hwc hl
    have heq₁ : ({ c with next_line_index := buf.length } : Codec)
        = { c₁ with next_line_index := buf.length } := by
      simp [hc₁]
    constructor
    · rw [heq, he]
    · intro r _
      rw [heq, he, heq₁]
  · -- shifted scanner fails on an overlong line
    have hwc : windowFree c buf := by
      intro j hj1 hj2
      by_cases hjn : j < n
      · exact hfree j hj1 hjn
      · exact hw j (by simp [hc₁]; omega) (by simpa [hc₁, eolWindow] using hj2)
    have heq : c.get_eol_idx buf = (c, .error (.BadFormat "Exceeded maximum line length.")) :=
      get_eol_eq_overlong hwc hl
    constructor
    · rw [heq, he]
    · intro r hr
      rw [he] at hr
      simp at hr

/-! ## Line loop machinery -/

/-- The line handlers never touch the scanner cursor, the line length
limit, or the mode tag. -/
def preservesCodec (onLine : Codec → List Nat → Except Err Codec) : Prop :=
  ∀ c l c', onLine c l = .ok c' →
    c'.next_line_index = c.next_line_index ∧ c'.max_line_length = c.max_line_length
      ∧ c'.state = c.state

theorem decode_telegram_line_preserves : preservesCodec decode_telegram_line := by
  intro c l c' h
  unfold decode_telegram_line at h
  repeat' split at h
  all_goals first
    | (injection h with h; subst h; exact ⟨rfl, rfl, rfl⟩)
    | simp at h

theorem decode_params_line_preserves : preservesCodec decode_params_line := by
  intro c l c' h
  unfold decode_params_line at h
  repeat' split at h
  all_goals first
    | (injection h with h; subst h; exact ⟨rfl, rfl, rfl⟩)
    | simp at h

theorem decode_kv_line_preserves : preservesCodec decode_kv_line := by
  intro c l c' h
  unfold decode_kv_line at h
  repeat' split at h
  all_goals (injection h with h; subst h; exact ⟨rfl, rfl, rfl⟩)

theorem decodeLines_succ (onLine : Codec → List Nat → Except Err Codec)
    (onEmpty : Codec → Codec × Input) (f : Nat) (c : Codec) (buf : List Nat) :
    decodeLines onLine onEmpty (f + 1) c buf =
      match c.get_eol_idx buf with
      | (c₁, .error e) => (c₁, buf, .error e)
      | (c₁, .ok none) => (c₁, buf, .ok none)
      | (c₁, .ok (some idx)) =>
        let line := without_carriage_return ((buf.take idx).dropLast)
        let buf' := buf.drop idx
        if utf8Valid line then
          if line.isEmpty then
            let (c₂, v) := onEmpty c₁
            (c₂, buf', .ok (some v))
          else
            match onLine c₁ line with
            | .error e => (c₁, buf', .error e)
            | .ok c₂ => decodeLines onLine onEmpty f c₂ buf'
        else (c₁, buf', .error (.IOErr "Unable to decode input as UTF8")) := rfl

theorem decodeLines_fuel {onLine : Codec → List Nat → Except Err Codec}
    {onEmpty : Codec → Codec × Input} :
    ∀ f f' c buf, buf.length < f → buf.length < f' →
      decodeLines onLine onEmpty f c buf = decodeLines onLine onEmpty f' c buf := by
  intro f
  induction f with
  | zero => intro f' c buf h; omega
  | succ f ih =>
    intro f' c buf h h'
    match f', h' with
    | f' + 1, h' =>
    rw [decodeLines_succ, decodeLines_succ]
    rcases hEol : c.get_eol_idx buf with ⟨c₁, e | (_ | idx)⟩
    · rfl
    · rfl
    · obtain ⟨o, rfl, hf, rfl⟩ := get_eol_some_inv hEol
      have hb := foundAt_bounds hf
      simp only
      split_ifs with h1 h2
      · rfl
      · rcases onLine { c with next_line_index := 0 }
            (without_carriage_return ((buf.take (o + 1)).dropLast)) with e | c₂
        · rfl
        · exact ih f' c₂ (buf.drop (o + 1))
            (by simp [List.length_drop]; omega) (by simp [List.length_drop]; omega)
      · rfl

/-- After a need-more-data verdict the loop leaves the cursor at the end
of the (possibly shortened) buffer, within the length limit, with mode
and limit untouched. -/
theorem decodeLines_none_post {onLine : Codec → List Nat → Except Err Codec}
    {onEmpty : Codec → Codec × Input} (hOn : preservesCodec onLine) :
    ∀ f c buf c₁ b₁, decodeLines onLine onEmpty f c buf = (c₁, b₁, .ok none) →
      c₁.next_line_index = b₁.length ∧ b₁.length ≤ c₁.max_line_length
        ∧ c₁.state = c.state ∧ c₁.max_line_length = c.max_line_length := by
  intro f
  induction f with
  | zero =>
    intro c buf c₁ b₁ h
    simp [decodeLines] at h
  | succ f ih =>
    intro c buf c₁ b₁ h
    rw [decodeLines_succ] at h
    split at h
    next cc e heq => simp at h
    next cc heq =>
      obtain ⟨-, hlen, rfl⟩ := get_eol_none_inv heq
      obtain ⟨h1, h2⟩ := Prod.mk.injEq .. ▸ h
      obtain ⟨h2a, -⟩ := Prod.mk.injEq .. ▸ h2
      subst h1; subst h2a
      exact ⟨rfl, hlen, rfl, rfl⟩
    next cc idx heq =>
      simp only at h
      split_ifs at h with h1 h2
      · rcases hE : onEmpty cc with ⟨c₂, v'⟩
        rw [hE] at h
        simp at h
      · rcases hLine : onLine cc (without_carriage_return ((buf.take idx).dropLast)) with e | c₂ <;>
          rw [hLine] at h
        · simp at h
        · obtain ⟨o, -, -, rfl⟩ := get_eol_some_inv heq
          obtain ⟨g1, g2, g3, g4⟩ := ih c₂ (buf.drop idx) c₁ b₁ h
          obtain ⟨-, p2, p3⟩ := hOn _ _ _ hLine
          exact ⟨g1, g2, by rw [g3, p3], by rw [g4, p2]⟩
      · simp at h

/-- A completed frame comes out of the `onEmpty` action, so its state is
whatever `onEmpty` sets. -/
theorem decodeLines_some_state {onLine : Codec → List Nat → Except Err Codec}
    {onEmpty : Codec → Codec × Input}
    (hEmp : ∀ c, ((onEmpty c).1).state = CodecState.Telegram) :
    ∀ f c buf c₁ b₁ v, decodeLines onLine onEmpty f c buf = (c₁, b₁, .ok (some v)) →
      c₁.state = CodecState.Telegram := by
  intro f
  induction f with
  | zero =>
    intro c buf c₁ b₁ v h
    simp [decodeLines] at h
  | succ f ih =>
    intro c buf c₁ b₁ v h
    rw [decodeLines_succ] at h
    rcases hEol : c.get_eol_idx buf with ⟨cc, e | (_ | idx)⟩ <;> rw [hEol] at h
    · simp at h
    · simp at h
    · simp only at h
      split_ifs at h with h1 h2
      · rcases hE : onEmpty cc with ⟨c₂, v'⟩
        rw [hE] at h
        obtain ⟨rfl, -⟩ := Prod.mk.injEq .. ▸ h
        have := hEmp cc
        rw [hE] at this
        exact this
      · rcases hLine : onLine cc (without_carriage_return ((buf.take idx).dropLast)) with e | c₂ <;>
          rw [hLine] at h
        · simp at h
        · exact ih c₂ (buf.drop idx) c₁ b₁ v h
      · simp at h

/-- A proper prefix of a buffer whose one-shot decode completes a frame
and consumes everything only yields "need more data". -/
theorem decodeLines_prefix_none {onLine : Codec → List Nat → Except Err Codec}
    {onEmpty : Codec → Codec × Input} (hOn : preservesCodec onLine) :
    ∀ f p q c c' v, (p ++ q).length < f →
      decodeLines onLine onEmpty f c (p ++ q) = (c', [], .ok (some v)) →
      q ≠ [] → c.next_line_index ≤ p.length →
      ∃ c₁ b₁, decodeLines onLine onEmpty (p.length + 1) c p = (c₁, b₁, .ok none) := by
  intro f
  induction f with
  | zero => intro p q c c' v hf; omega
  | succ f ih =>
    intro p q c c' v hf h hq hcur
    rw [decodeLines_succ] at h
    split at h
    next cc e heq => simp at h
    next cc heq => simp at h
    next cc idx heq =>
      obtain ⟨o, hidx, hfound, rfl⟩ := get_eol_some_inv heq
      subst hidx
      by_cases hop : o < p.length
      · have hlep : o + 1 ≤ p.length := by omega
        have htake : (p ++ q).take (o + 1) = p.take (o + 1) := List.take_append_of_le_length hlep
        have hdrop : (p ++ q).drop (o + 1) = p.drop (o + 1) ++ q :=
          List.drop_append_of_le_length hlep
        have hfp : foundAt c p o := foundAt_append_left hfound hop
        rw [htake, hdrop] at h
        simp only at h
        split_ifs at h with h1 h2
        · -- empty line would complete now with a non-empty leftover
          rcases hE : onEmpty { c with next_line_index := 0 } with ⟨c₂, v'⟩
          rw [hE] at h
          obtain ⟨-, h2'⟩ := Prod.mk.injEq .. ▸ h
          obtain ⟨h2a, -⟩ := Prod.mk.injEq .. ▸ h2'
          rcases List.append_eq_nil.mp h2a with ⟨-, h2b⟩
          exact absurd h2b hq
        · rcases hLine : onLine { c with next_line_index := 0 }
              (without_carriage_return ((p.take (o + 1)).dropLast)) with e | c₂ <;>
            rw [hLine] at h
          · simp at h
          · have hcur₂ : c₂.next_line_index ≤ (p.drop (o + 1)).length := by
              have := (hOn _ _ _ hLine).1
              simp [this]
            obtain ⟨c₁, b₁, hres⟩ := ih (p.drop (o + 1)) q c₂ c' v
              (by simp at hf ⊢; omega) h hq hcur₂
            refine ⟨c₁, b₁, ?_⟩
            rw [decodeLines_succ]
            simp only [get_eol_eq_found hfp]
            rw [if_pos h1, if_neg h2]
            simp only [hLine]
            rw [decodeLines_fuel p.length ((p.drop (o + 1)).length + 1) c₂ (p.drop (o + 1))
              (by simp only [List.length_drop]; omega)
              (by simp only [List.length_drop]; omega)]
            exact hres
        · simp at h
      · obtain ⟨hwf, hmax⟩ := windowFree_of_found_ge hfound (by omega)
        refine ⟨{ c with next_line_index := p.length }, p, ?_⟩
        rw [decodeLines_succ]
        simp only [get_eol_eq_needmore hwf hmax]

/-- Resumption: a need-more-data call followed by a call on the extended
buffer behaves exactly like one call on the whole input, whenever that
whole-input call does not fail. -/
theorem decodeLines_extend {onLine : Codec → List Nat → Except Err Codec}
    {onEmpty : Codec → Codec × Input} (hOn : preservesCodec onLine) :
    ∀ f b c c₁ b₁, b.length < f →
      decodeLines onLine onEmpty f c b = (c₁, b₁, .ok none) →
      c.next_line_index ≤ b.length →
      ∀ e c₂ b₂ r, decodeLines onLine onEmpty ((b ++ e).length + 1) c (b ++ e) = (c₂, b₂, .ok r) →
        decodeLines onLine onEmpty ((b₁ ++ e).length + 1) c₁ (b₁ ++ e) = (c₂, b₂, .ok r) := by
  intro f
  induction f with
  | zero => intro b c c₁ b₁ hf; omega
  | succ f ih =>
    intro b c c₁ b₁ hf h hcur e c₂ b₂ r hL
    rw [decodeLines_succ] at h
    split at h
    next cc er heq => simp at h
    next cc heq =>
      obtain ⟨hwf, hlen, rfl⟩ := get_eol_none_inv heq
      obtain ⟨h1, h2'⟩ := Prod.mk.injEq .. ▸ h
      obtain ⟨h2a, -⟩ := Prod.mk.injEq .. ▸ h2'
      subst h1
      subst h2a
      have hfree : ∀ j, c.next_line_index ≤ j → j < b.length → (b ++ e).getD j 0 ≠ 10 := by
        intro j hj1 hj2
        rw [getD0_append_left b e hj2]
        exact hwf j hj1 (by unfold eolWindow; omega)
      obtain ⟨hskip1, hskip2⟩ := @get_eol_skip c (b ++ e) b.length hcur hfree
      rcases hEol' : ({ c with next_line_index := b.length } : Codec).get_eol_idx (b ++ e)
        with ⟨dd, res⟩
      cases res with
      | error er2 =>
        have hres2 : (c.get_eol_idx (b ++ e)).2 = .error er2 := by
          rw [hskip1, hEol']
        rcases hC : c.get_eol_idx (b ++ e) with ⟨ee, res3⟩
        rw [hC] at hres2
        simp at hres2
        subst hres2
        rw [decodeLines_succ] at hL
        simp only [hC] at hL
        simp at hL
      | ok ores =>
        have heqscan : c.get_eol_idx (b ++ e) = (dd, .ok ores) := by
          rw [hskip2 ores (by rw [hEol'])]
          exact hEol'
        rw [decodeLines_succ] at hL ⊢
        rw [heqscan] at hL
        rw [hEol']
        exact hL
    next cc idx heq =>
      obtain ⟨o, hidx, hfound, rfl⟩ := get_eol_some_inv heq
      subst hidx
      obtain ⟨hob, -⟩ := foundAt_bounds hfound
      simp only at h
      split_ifs at h with h1 h2
      · rcases hE : onEmpty { c with next_line_index := 0 } with ⟨cE, v'⟩
        rw [hE] at h
        simp at h
      · rcases hLine : onLine { c with next_line_index := 0 }
            (without_carriage_return ((b.take (o + 1)).dropLast)) with er | c₂' <;>
          rw [hLine] at h
        · simp at h
        · have hfound' : foundAt c (b ++ e) o := foundAt_append_extend hfound
          rw [decodeLines_succ] at hL
          simp only [get_eol_eq_found hfound'] at hL
          rw [List.take_append_of_le_length (by omega), List.drop_append_of_le_length (by omega)]
            at hL
          rw [if_pos h1, if_neg h2] at hL
          simp only [hLine] at hL
          rw [decodeLines_fuel ((b ++ e).length) ((b.drop (o + 1) ++ e).length + 1) c₂'
            (b.drop (o + 1) ++ e)
            (by simp only [List.length_drop, List.length_append]; omega)
            (by simp only [List.length_drop, List.length_append]; omega)] at hL
          have hcur₂ : c₂'.next_line_index ≤ (b.drop (o + 1)).length := by
            have := (hOn _ _ _ hLine).1
            simp [this]
          exact ih (b.drop (o + 1)) c₂' c₁ b₁ (by simp; omega) h hcur₂ e c₂ b₂ r hL
      · simp at h

/-! ## Binary mode unit lemmas -/

theorem decode_binary_empty {c : Codec}
    (hs : c.state = .Chunks ∨ c.state = .Bytes ∨ c.state = .BytesMut ∨ c.state = .File
      ∨ c.state = .Writer ∨ c.state = .Skip) :
    decode c [] = (c, [], .ok none) := by
  rcases hs with hs | hs | hs | hs | hs | hs <;>
    (unfold decode; rw [hs]; simp)

theorem decode_chunks_more {c : Codec} {buf : List Nat} (hs : c.state = .Chunks)
    (hb : buf ≠ []) (hlt : buf.length < c.bin_remain) :
    decode c buf = ({ c with bin_remain := c.bin_remain - buf.length }, [],
      .ok (some (.Chunk buf (c.bin_remain - buf.length)))) := by
  unfold decode
  rw [hs]
  have h1 : buf.isEmpty = false := by simpa [List.isEmpty_iff] using hb
  have h2 : min c.bin_remain buf.length = buf.length := by omega
  simp only [h1, Bool.false_eq_true, if_false, h2]
  rw [if_neg (by omega)]
  simp

theorem decode_chunks_done {c : Codec} {buf : List Nat} (hs : c.state = .Chunks)
    (hb : buf ≠ []) (hge : c.bin_remain ≤ buf.length) :
    decode c buf = ({ c with state := .Telegram, bin_remain := 0 },
      buf.drop c.bin_remain, .ok (some (.Chunk (buf.take c.bin_remain) 0))) := by
  unfold decode
  rw [hs]
  have h1 : buf.isEmpty = false := by simpa [List.isEmpty_iff] using hb
  have h2 : min c.bin_remain buf.length = c.bin_remain := by omega
  simp only [h1, Bool.false_eq_true, if_false, h2]
  rw [if_pos (by omega)]
  simp

theorem decode_bytes_more {c : Codec} {buf : List Nat} (hs : c.state = .Bytes)
    (hb : buf ≠ []) (hlt : buf.length < c.bin_remain) :
    decode c buf = ({ c with buf := c.buf ++ buf, bin_remain := c.bin_remain - buf.length },
      [], .ok none) := by
  unfold decode
  rw [hs]
  have h1 : buf.isEmpty = false := by simpa [List.isEmpty_iff] using hb
  have h2 : min c.bin_remain buf.length = buf.length := by omega
  simp only [h1, Bool.false_eq_true, if_false, h2]
  rw [if_pos (by simp; omega)]
  simp

theorem decode_bytes_done {c : Codec} {buf : List Nat} (hs : c.state = .Bytes)
    (hb : buf ≠ []) (hge : c.bin_remain ≤ buf.length) :
    decode c buf = ({ c with state := .Telegram, buf := [], bin_remain := 0 },
      buf.drop c.bin_remain, .ok (some (.Bytes (c.buf ++ buf.take c.bin_remain)))) := by
  unfold decode
  rw [hs]
  have h1 : buf.isEmpty = false := by simpa [List.isEmpty_iff] using hb
  have h2 : min c.bin_remain buf.length = c.bin_remain := by omega
  simp only [h1, Bool.false_eq_true, if_false, h2]
  rw [if_neg (by simp)]
  simp

theorem decode_bytesmut_more {c : Codec} {buf : List Nat} (hs : c.state = .BytesMut)
    (hb : buf ≠ []) (hlt : buf.length < c.bin_remain) :
    decode c buf = ({ c with buf := c.buf ++ buf, bin_remain := c.bin_remain - buf.length },
      [], .ok none) := by
  unfold decode
  rw [hs]
  have h1 : buf.isEmpty = false := by simpa [List.isEmpty_iff] using hb
  have h2 : min c.bin_remain buf.length = buf.length := by omega
  simp only [h1, Bool.false_eq_true, if_false, h2]
  rw [if_pos (by simp; omega)]
  simp

theorem decode_bytesmut_done {c : Codec} {buf : List Nat} (hs : c.state = .BytesMut)
    (hb : buf ≠ []) (hge : c.bin_remain ≤ buf.length) :
    decode c buf = ({ c with state := .Telegram, buf := [], bin_remain := 0 },
      buf.drop c.bin_remain, .ok (some (.BytesMut (c.buf ++ buf.take c.bin_remain)))) := by
  unfold decode
  rw [hs]
  have h1 : buf.isEmpty = false := by simpa [List.isEmpty_iff] using hb
  have h2 : min c.bin_remain buf.length = c.bin_remain := by omega
  simp only [h1, Bool.false_eq_true, if_false, h2]
  rw [if_neg (by simp)]
  simp

theorem decode_sink_more {c : Codec} {buf : List Nat}
    (hs : c.state = .File ∨ c.state = .Writer) (hw : c.writer = some ())
    (hb : buf ≠ []) (hlt : buf.length < c.bin_remain) :
    decode c buf =
      ({ c with
          written := c.written ++ buf
          bin_remain := c.bin_remain - buf.length }, [], .ok none) := by
  have h1 : buf.isEmpty = false := by simpa [List.isEmpty_iff] using hb
  have h2 : min c.bin_remain buf.length = buf.length := by omega
  rcases hs with hs | hs <;>
    (unfold decode; rw [hs]; simp only [h1, Bool.false_eq_true, if_false, h2, hw];
     rw [if_pos (by simp; omega)]; simp)

theorem decode_file_done {c : Codec} {buf pname : List Nat}
    (hs : c.state = .File) (hw : c.writer = some ()) (hp : c.pathname = some pname)
    (hb : buf ≠ []) (hge : c.bin_remain ≤ buf.length) :
    decode c buf =
      ({ c with
          written := c.written ++ buf.take c.bin_remain
          bin_remain := 0
          writer := none
          pathname := none
          state := .Telegram }, buf.drop c.bin_remain, .ok (some (.File pname))) := by
  have h1 : buf.isEmpty = false := by simpa [List.isEmpty_iff] using hb
  have h2 : min c.bin_remain buf.length = c.bin_remain := by omega
  unfold decode
  rw [hs]
  simp only [h1, Bool.false_eq_true, if_false, h2, hw]
  rw [if_neg (by simp)]
  simp only [hs, hp]
  simp

theorem decode_writer_done {c : Codec} {buf : List Nat}
    (hs : c.state = .Writer) (hw : c.writer = some ())
    (hb : buf ≠ []) (hge : c.bin_remain ≤ buf.length) :
    decode c buf =
      ({ c with
          written := c.written ++ buf.take c.bin_remain
          bin_remain := 0
          writer := none
          state := .Telegram }, buf.drop c.bin_remain, .ok (some .WriteDone)) := by
  have h1 : buf.isEmpty = false := by simpa [List.isEmpty_iff] using hb
  have h2 : min c.bin_remain buf.length = c.bin_remain := by omega
  unfold decode
  rw [hs]
  simp only [h1, Bool.false_eq_true, if_false, h2, hw]
  rw [if_neg (by simp)]
  simp

theorem decode_skip_more {c : Codec} {buf : List Nat} (hs : c.state = .Skip)
    (hb : buf ≠ []) (hlt : buf.length < c.bin_remain) :
    decode c buf = ({ c with bin_remain := c.bin_remain - buf.length }, [], .ok none) := by
  unfold decode
  rw [hs]
  have h1 : buf.isEmpty = false := by simpa [List.isEmpty_iff] using hb
  have h2 : min c.bin_remain buf.length = buf.length := by omega
  simp only [h1, Bool.false_eq_true, if_false, h2]
  rw [if_pos (by simp; omega)]
  simp

theorem decode_skip_done {c : Codec} {buf : List Nat} (hs : c.state = .Skip)
    (hb : buf ≠ []) (hge : c.bin_remain ≤ buf.length) :
    decode c buf = ({ c with state := .Telegram, bin_remain := 0 },
      buf.drop c.bin_remain, .ok (some .SkipDone)) := by
  unfold decode
  rw [hs]
  have h1 : buf.isEmpty = false := by simpa [List.isEmpty_iff] using hb
  have h2 : min c.bin_remain buf.length = c.bin_remain := by omega
  simp only [h1, Bool.false_eq_true, if_false, h2]
  rw [if_neg (by simp)]
  simp

/-- The three line-oriented decoder states. -/
def isLineState (s : CodecState) : Prop :=
  s = .Telegram ∨ s = .Params ∨ s = .KVLines

theorem decode_eq_telegram {c : Codec} (hs : c.state = .Telegram) (buf : List Nat) :
    decode c buf = decodeLines decode_telegram_line telegramOnEmpty (buf.length + 1) c buf := by
  unfold decode
  rw [hs]
  rfl

theorem decode_eq_params {c : Codec} (hs : c.state = .Params) (buf : List Nat) :
    decode c buf = decodeLines decode_params_line paramsOnEmpty (buf.length + 1) c buf := by
  unfold decode
  rw [hs]
  rfl

theorem decode_eq_kvlines {c : Codec} (hs : c.state = .KVLines) (buf : List Nat) :
    decode c buf = decodeLines decode_kv_line kvOnEmpty (buf.length + 1) c buf := by
  unfold decode
  rw [hs]
  rfl

/-- With the sink handle already dropped, a sink-mode call never
consumes the input buffer. -/
theorem decode_sink_nowriter {c : Codec} {buf : List Nat}
    (hs : c.state = .File ∨ c.state = .Writer) (hw : c.writer = none) (hb : buf ≠ []) :
    (decode c buf).2.1 = buf := by
  have h1 : buf.isEmpty = false := by simpa [List.isEmpty_iff] using hb
  rcases hs with hs | hs
  · unfold decode
    rw [hs]
    simp only [h1, Bool.false_eq_true, if_false, hw]
    split_ifs with hrem
    · rfl
    · split
      · split
        · rfl
        · rfl
      · rfl
  · unfold decode
    rw [hs]
    simp only [h1, Bool.false_eq_true, if_false, hw]
    split_ifs with hrem
    · rfl
    · split
      · split
        · rfl
        · rfl
      · rfl

theorem decode_file_done_nopath {c : Codec} {buf : List Nat}
    (hs : c.state = .File) (hw : c.writer = some ()) (hp : c.pathname = none)
    (hb : buf ≠ []) (hge : c.bin_remain ≤ buf.length) :
    decode c buf =
      ({ c with
          written := c.written ++ buf.take c.bin_remain
          bin_remain := 0
          writer := none }, buf.drop c.bin_remain,
        .error (.BadState "Missing pathname")) := by
  have h1 : buf.isEmpty = false := by simpa [List.isEmpty_iff] using hb
  have h2 : min c.bin_remain buf.length = c.bin_remain := by omega
  unfold decode
  rw [hs]
  simp only [h1, Bool.false_eq_true, if_false, h2, hw]
  rw [if_neg (by simp)]
  simp only [hs, hp]
  simp

theorem isLineState_not_binary {s : CodecState}
    (h : s = .Chunks ∨ s = .Bytes ∨ s = .BytesMut ∨ s = .File ∨ s = .Writer ∨ s = .Skip) :
    ¬ isLineState s := by
  rcases h with h | h | h | h | h | h <;> subst h <;>
    (rintro (h | h | h) <;> simp at h)

theorem decode_prefix_split_lines {onLine : Codec → List Nat → Except Err Codec}
    {onEmpty : Codec → Codec × Input} (hOn : preservesCodec onLine)
    {c : Codec} {p q : List Nat} {c' : Codec} {v : Input}
    (hdec : ∀ (d : Codec) (buf : List Nat), d.state = c.state →
      decode d buf = decodeLines onLine onEmpty (buf.length + 1) d buf)
    (hcur : c.next_line_index ≤ p.length) (hq : q ≠ [])
    (h : decode c (p ++ q) = (c', [], .ok (some v))) :
    ∃ c₁ b₁, decode c p = (c₁, b₁, .ok none) ∧ c₁.state = c.state
      ∧ (isLineState c₁.state → c₁.next_line_index ≤ b₁.length)
      ∧ decode c₁ (b₁ ++ q) = (c', [], .ok (some v)) := by
  rw [hdec c (p ++ q) rfl] at h
  obtain ⟨c₁, b₁, hnone⟩ :=
    decodeLines_prefix_none hOn ((p ++ q).length + 1) p q c c' v (by omega) h hq hcur
  obtain ⟨hpost1, hpost2, hpost3, hpost4⟩ :=
    decodeLines_none_post hOn (p.length + 1) c p c₁ b₁ hnone
  have hext := decodeLines_extend hOn (p.length + 1) p c c₁ b₁ (by omega) hnone hcur
    q c' [] (some v) h
  refine ⟨c₁, b₁, ?_, hpost3, ?_, ?_⟩
  · rw [hdec c p rfl]
    exact hnone
  · intro _
    omega
  · rw [hdec c₁ (b₁ ++ q) hpost3]
    exact hext

theorem decode_prefix_split {c : Codec} {p q : List Nat} {c' : Codec} {v : Input}
    (hchunks : c.state ≠ .Chunks)
    (hcur : isLineState c.state → c.next_line_index ≤ p.length)
    (hq : q ≠ [])
    (h : decode c (p ++ q) = (c', [], .ok (some v))) :
    ∃ c₁ b₁, decode c p = (c₁, b₁, .ok none) ∧ c₁.state = c.state
      ∧ (isLineState c₁.state → c₁.next_line_index ≤ b₁.length)
      ∧ decode c₁ (b₁ ++ q) = (c', [], .ok (some v)) := by
  have hqlen : 0 < q.length := by
    cases q
    · simp at hq
    · simp
  have hpq : p ++ q ≠ [] := by
    simp only [ne_eq, List.append_eq_nil, not_and]
    intro
    exact hq
  obtain ⟨hst, rest⟩ : ∃ s, c.state = s := ⟨c.state, rfl⟩
  cases hst
  case Telegram =>
    exact decode_prefix_split_lines decode_telegram_line_preserves
      (fun d buf hd => decode_eq_telegram (hd.trans rest) buf)
      (hcur (by rw [rest]; left; rfl)) hq h
  case Params =>
    exact decode_prefix_split_lines decode_params_line_preserves
      (fun d buf hd => decode_eq_params (hd.trans rest) buf)
      (hcur (by rw [rest]; right; left; rfl)) hq h
  case KVLines =>
    exact decode_prefix_split_lines decode_kv_line_preserves
      (fun d buf hd => decode_eq_kvlines (hd.trans rest) buf)
      (hcur (by rw [rest]; right; right; rfl)) hq h
  case Chunks => exact absurd rest hchunks
  case Bytes =>
    have hnotline : ¬ isLineState c.state := by
      rw [rest]
      exact isLineState_not_binary (by tauto)
    by_cases hge : c.bin_remain ≤ (p ++ q).length
    · have h0 := h
      rw [decode_bytes_done rest hpq hge] at h
      have hdrop := congrArg (fun t => t.2.1) h
      simp only at hdrop
      have hdlen := congrArg List.length hdrop
      simp only [List.length_drop, List.length_append, List.length_nil] at hdlen
      have hS : c.bin_remain = p.length + q.length := by
        simp only [List.length_append] at hge
        omega
      by_cases hp : p = []
      · subst hp
        exact ⟨c, [], decode_binary_empty (by rw [rest]; tauto), rfl,
          fun hl => absurd hl hnotline, by simpa using h0⟩
      · have hplt : p.length < c.bin_remain := by omega
        refine ⟨_, [], decode_bytes_more rest hp hplt, rfl,
          fun hl => absurd hl hnotline, ?_⟩
        rw [List.nil_append]
        rw [@decode_bytes_done { c with buf := c.buf ++ p, bin_remain := c.bin_remain - p.length } q rest hq (by show c.bin_remain - p.length ≤ q.length; omega)]
        have e2 : (p ++ q).take c.bin_remain = p ++ q :=
          List.take_of_length_le (by simp only [List.length_append]; omega)
        rw [hdrop, e2] at h
        show (_, List.drop (c.bin_remain - p.length) q, _) = _
        have e3 : q.drop (c.bin_remain - p.length) = [] :=
          List.drop_eq_nil_of_le (by omega)
        have e4 : q.take (c.bin_remain - p.length) = q :=
          List.take_of_length_le (by omega)
        rw [e3, e4]
        rw [← List.append_assoc] at h
        exact h
    · rw [decode_bytes_more rest hpq (by omega)] at h
      simp at h
  case BytesMut =>
    have hnotline : ¬ isLineState c.state := by
      rw [rest]
      exact isLineState_not_binary (by tauto)
    by_cases hge : c.bin_remain ≤ (p ++ q).length
    · have h0 := h
      rw [decode_bytesmut_done rest hpq hge] at h
      have hdrop := congrArg (fun t => t.2.1) h
      simp only at hdrop
      have hdlen := congrArg List.length hdrop
      simp only [List.length_drop, List.length_append, List.length_nil] at hdlen
      have hS : c.bin_remain = p.length + q.length := by
        simp only [List.length_append] at hge
        omega
      by_cases hp : p = []
      · subst hp
        exact ⟨c, [], decode_binary_empty (by rw [rest]; tauto), rfl,
          fun hl => absurd hl hnotline, by simpa using h0⟩
      · have hplt : p.length < c.bin_remain := by omega
        refine ⟨_, [], decode_bytesmut_more rest hp hplt, rfl,
          fun hl => absurd hl hnotline, ?_⟩
        rw [List.nil_append]
        rw [@decode_bytesmut_done { c with buf := c.buf ++ p, bin_remain := c.bin_remain - p.length } q rest hq (by show c.bin_remain - p.length ≤ q.length; omega)]
        have e2 : (p ++ q).take c.bin_remain = p ++ q :=
          List.take_of_length_le (by simp only [List.length_append]; omega)
        rw [hdrop, e2] at h
        show (_, List.drop (c.bin_remain - p.length) q, _) = _
        have e3 : q.drop (c.bin_remain - p.length) = [] :=
          List.drop_eq_nil_of_le (by omega)
        have e4 : q.take (c.bin_remain - p.length) = q :=
          List.take_of_length_le (by omega)
        rw [e3, e4]
        rw [← List.append_assoc] at h
        exact h
    · rw [decode_bytesmut_more rest hpq (by omega)] at h
      simp at h
  case Skip =>
    have hnotline : ¬ isLineState c.state := by
      rw [rest]
      exact isLineState_not_binary (by tauto)
    by_cases hge : c.bin_remain ≤ (p ++ q).length
    · have h0 := h
      rw [decode_skip_done rest hpq hge] at h
      have hdrop := congrArg (fun t => t.2.1) h
      simp only at hdrop
      have hdlen := congrArg List.length hdrop
      simp only [List.length_drop, List.length_append, List.length_nil] at hdlen
      have hS : c.bin_remain = p.length + q.length := by
        simp only [List.length_append] at hge
        omega
      by_cases hp : p = []
      · subst hp
        exact ⟨c, [], decode_binary_empty (by rw [rest]; tauto), rfl,
          fun hl => absurd hl hnotline, by simpa using h0⟩
      · have hplt : p.length < c.bin_remain := by omega
        refine ⟨_, [], decode_skip_more rest hp hplt, rfl,
          fun hl => absurd hl hnotline, ?_⟩
        rw [List.nil_append]
        rw [@decode_skip_done { c with bin_remain := c.bin_remain - p.length } q rest hq (by show c.bin_remain - p.length ≤ q.length; omega)]
        rw [hdrop] at h
        show (_, List.drop (c.bin_remain - p.length) q, _) = _
        have e3 : q.drop (c.bin_remain - p.length) = [] :=
          List.drop_eq_nil_of_le (by omega)
        rw [e3]
        exact h
    · rw [decode_skip_more rest hpq (by omega)] at h
      simp at h
  case File =>
    have hnotline : ¬ isLineState c.state := by
      rw [rest]
      exact isLineState_not_binary (by tauto)
    rcases hwv : c.writer with _ | u
    · have hnw := decode_sink_nowriter (Or.inl rest) hwv hpq
      rw [h] at hnw
      simp only at hnw
      exact absurd hnw.symm hpq
    · obtain rfl : u = () := rfl
      rcases hpath : c.pathname with _ | pname
      · by_cases hge : c.bin_remain ≤ (p ++ q).length
        · rw [decode_file_done_nopath rest hwv hpath hpq hge] at h
          simp at h
        · rw [decode_sink_more (Or.inl rest) hwv hpq (by omega)] at h
          simp at h
      · by_cases hge : c.bin_remain ≤ (p ++ q).length
        · have h0 := h
          rw [decode_file_done rest hwv hpath hpq hge] at h
          have hdrop := congrArg (fun t => t.2.1) h
          simp only at hdrop
          have hdlen := congrArg List.length hdrop
          simp only [List.length_drop, List.length_append, List.length_nil] at hdlen
          have hS : c.bin_remain = p.length + q.length := by
            simp only [List.length_append] at hge
            omega
          by_cases hp : p = []
          · subst hp
            exact ⟨c, [], decode_binary_empty (by rw [rest]; tauto), rfl,
              fun hl => absurd hl hnotline, by simpa using h0⟩
          · have hplt : p.length < c.bin_remain := by omega
            refine ⟨_, [], decode_sink_more (Or.inl rest) hwv hp hplt, rfl,
              fun hl => absurd hl hnotline, ?_⟩
            rw [List.nil_append]
            rw [@decode_file_done { c with written := c.written ++ p, bin_remain := c.bin_remain - p.length } q pname rest hwv hpath hq (by show c.bin_remain - p.length ≤ q.length; omega)]
            have e2 : (p ++ q).take c.bin_remain = p ++ q :=
              List.take_of_length_le (by simp only [List.length_append]; omega)
            rw [hdrop, e2] at h
            show (_, List.drop (c.bin_remain - p.length) q, _) = _
            have e3 : q.drop (c.bin_remain - p.length) = [] :=
              List.drop_eq_nil_of_le (by omega)
            have e4 : q.take (c.bin_remain - p.length) = q :=
              List.take_of_length_le (by omega)
            rw [e3, e4]
            rw [← List.append_assoc] at h
            exact h
        · rw [decode_sink_more (Or.inl rest) hwv hpq (by omega)] at h
          simp at h
  case Writer =>
    have hnotline : ¬ isLineState c.state := by
      rw [rest]
      exact isLineState_not_binary (by tauto)
    rcases hwv : c.writer with _ | u
    · have hnw := decode_sink_nowriter (Or.inr rest) hwv hpq
      rw [h] at hnw
      simp only at hnw
      exact absurd hnw.symm hpq
    · obtain rfl : u = () := rfl
      by_cases hge : c.bin_remain ≤ (p ++ q).length
      · have h0 := h
        rw [decode_writer_done rest hwv hpq hge] at h
        have hdrop := congrArg (fun t => t.2.1) h
        simp only at hdrop
        have hdlen := congrArg List.length hdrop
        simp only [List.length_drop, List.length_append, List.length_nil] at hdlen
        have hS : c.bin_remain = p.length + q.length := by
          simp only [List.length_append] at hge
          omega
        by_cases hp : p = []
        · subst hp
          exact ⟨c, [], decode_binary_empty (by rw [rest]; tauto), rfl,
            fun hl => absurd hl hnotline, by simpa using h0⟩
        · have hplt : p.length < c.bin_remain := by omega
          refine ⟨_, [], decode_sink_more (Or.inr rest) hwv hp hplt, rfl,
            fun hl => absurd hl hnotline, ?_⟩
          rw [List.nil_append]
          rw [@decode_writer_done { c with written := c.written ++ p, bin_remain := c.bin_remain - p.length } q rest hwv hq (by show c.bin_remain - p.length ≤ q.length; omega)]
          have e2 : (p ++ q).take c.bin_remain = p ++ q :=
            List.take_of_length_le (by simp only [List.length_append]; omega)
          rw [hdrop, e2] at h
          show (_, List.drop (c.bin_remain - p.length) q, _) = _
          have e3 : q.drop (c.bin_remain - p.length) = [] :=
            List.drop_eq_nil_of_le (by omega)
          have e4 : q.take (c.bin_remain - p.length) = q :=
            List.take_of_length_le (by omega)
          rw [e3, e4]
          rw [← List.append_assoc] at h
          exact h
      · rw [decode_sink_more (Or.inr rest) hwv hpq (by omega)] at h
        simp at h

theorem decodeLines_scan_none {onLine : Codec → List Nat → Except Err Codec}
    {onEmpty : Codec → Codec × Input} {c : Codec} {buf : List Nat} {f : Nat}
    (hw : windowFree c buf) (hl : buf.length ≤ c.max_line_length) :
    decodeLines onLine onEmpty (f + 1) c buf
      = ({ c with next_line_index := buf.length }, buf, .ok none) := by
  rw [decodeLines_succ]
  simp only [get_eol_eq_needmore hw hl]

theorem decodeLines_scan_err {onLine : Codec → List Nat → Except Err Codec}
    {onEmpty : Codec → Codec × Input} {c : Codec} {buf : List Nat} {f : Nat}
    (hw : windowFree c buf) (hl : c.max_line_length < buf.length) :
    decodeLines onLine onEmpty (f + 1) c buf
      = (c, buf, .error (.BadFormat "Exceeded maximum line length.")) := by
  rw [decodeLines_succ]
  simp only [get_eol_eq_overlong hw hl]

/-- Feeding segments one call at a time: while the whole input decodes
to a single completed value consuming everything, every intermediate
call reports "need more data" and the last call returns the one-shot
result. -/
theorem feed_ok :
    ∀ (segs : List (List Nat)) (c : Codec) (pending : List Nat) (c' : Codec) (v : Input),
      (∀ s ∈ segs, s ≠ []) → segs ≠ [] →
      c.state ≠ .Chunks →
      (isLineState c.state → c.next_line_index ≤ pending.length) →
      decode c (pending ++ segs.flatten) = (c', [], .ok (some v)) →
      feed c pending segs = .ok (c', [], List.replicate (segs.length - 1) none ++ [some v]) := by
  intro segs
  induction segs with
  | nil => intro c pending c' v hne hs; exact absurd rfl hs
  | cons s rest ih =>
    intro c pending c' v hne _ hchunks hcur h
    cases rest with
    | nil =>
      rw [List.flatten_cons, List.flatten_nil, List.append_nil] at h
      unfold feed
      simp only [h]
      rfl
    | cons r rs =>
      have hrne : ∀ t ∈ r :: rs, t ≠ [] := fun t ht => hne t (by simp [ht])
      have hrflat : (r :: rs).flatten ≠ [] := by
        have hr : r ≠ [] := hne r (by simp)
        simp only [List.flatten_cons, ne_eq, List.append_eq_nil, not_and]
        intro h'
        exact absurd h' hr
      have hassoc : pending ++ (s :: r :: rs).flatten
          = (pending ++ s) ++ (r :: rs).flatten := by
        rw [List.flatten_cons, List.append_assoc]
      rw [hassoc] at h
      obtain ⟨c₁, b₁, hnone, hstate, hcur₁, hcont⟩ :=
        decode_prefix_split hchunks
          (fun hl => le_trans (hcur hl) (by simp only [List.length_append]; omega)) hrflat h
      have hres := ih c₁ b₁ c' v hrne (by simp) (by rw [hstate]; exact hchunks) hcur₁ hcont
      unfold feed
      simp only [hnone, hres]
      simp only [List.length_cons]
      have he : rs.length + 1 + 1 - 1 = (rs.length + 1 - 1) + 1 := by omega
      rw [he, List.replicate_succ]
      rfl

/-- Chunked mode passthrough: each nonempty segment is emitted whole as
one chunk with the running remaining count, ending in remaining zero
and reversion to `Telegram`. -/
theorem feed_chunks :
    ∀ (segs : List (List Nat)) (c : Codec),
      c.state = .Chunks → (∀ s ∈ segs, s ≠ []) → segs ≠ [] →
      c.bin_remain = segs.flatten.length →
      feed c [] segs = .ok ({ c with state := .Telegram, bin_remain := 0 }, [],
        chunkOutputs c.bin_remain segs) := by
  intro segs
  induction segs with
  | nil => intro c _ _ hs; exact absurd rfl hs
  | cons s rest ih =>
    intro c hst hne _ hrem
    have hs : s ≠ [] := hne s (by simp)
    cases rest with
    | nil =>
      rw [List.flatten_cons, List.flatten_nil, List.append_nil] at hrem
      unfold feed
      rw [List.nil_append]
      rw [decode_chunks_done hst hs (by omega)]
      have ht : s.take c.bin_remain = s := List.take_of_length_le (by omega)
      have hd : s.drop c.bin_remain = [] := List.drop_eq_nil_of_le (by omega)
      rw [ht, hd]
      unfold feed
      simp only [chunkOutputs, hrem]
      simp
    | cons r rs =>
      have hrne : ∀ t ∈ r :: rs, t ≠ [] := fun t ht => hne t (by simp [ht])
      have hrflat : (r :: rs).flatten ≠ [] := by
        have hr : r ≠ [] := hne r (by simp)
        simp only [List.flatten_cons, ne_eq, List.append_eq_nil, not_and]
        intro h'
        exact absurd h' hr
      have hflen : 0 < (r :: rs).flatten.length := by
        cases hfl : (r :: rs).flatten
        · exact absurd hfl hrflat
        · simp
      have hslt : s.length < c.bin_remain := by
        rw [hrem, List.flatten_cons, List.length_append]
        omega
      unfold feed
      rw [List.nil_append]
      rw [decode_chunks_more hst hs hslt]
      have hres := ih { c with bin_remain := c.bin_remain - s.length } hst hrne (by simp)
        (by simp only; rw [hrem, List.flatten_cons, List.length_append]; omega)
      simp only [hres]
      rfl

/-- An unterminated line longer than the limit fails with `BadFormat`
under every split of the input into arrival segments. -/
theorem feed_overlong :
    ∀ (segs : List (List Nat)) (c : Codec) (pending L suffix : List Nat),
      isLineState c.state → c.next_line_index = pending.length →
      pending.length ≤ c.max_line_length →
      10 ∉ L → c.max_line_length < L.length →
      pending ++ segs.flatten = L ++ suffix →
      feed c pending segs = .error (.BadFormat "Exceeded maximum line length.") := by
  intro segs
  induction segs with
  | nil =>
    intro c pending L suffix _ _ hplen _ hLlen hstream
    rw [List.flatten_nil, List.append_nil] at hstream
    have := congrArg List.length hstream
    simp only [List.length_append] at this
    omega
  | cons s rest ih =>
    intro c pending L suffix hline hcur hplen hLfree hLlen hstream
    rw [List.flatten_cons] at hstream
    have hstream' : (pending ++ s) ++ rest.flatten = L ++ suffix := by
      rw [List.append_assoc]
      exact hstream
    have hLbyte : ∀ j, j < (pending ++ s).length → j < L.length →
        (pending ++ s).getD j 0 ≠ 10 := by
      intro j hj1 hj2
      have he : ((pending ++ s) ++ rest.flatten).getD j 0 = (L ++ suffix).getD j 0 := by
        rw [hstream']
      rw [getD0_append_left _ _ hj1, getD0_append_left _ _ hj2] at he
      rw [he]
      intro hc
      exact hLfree (by rw [← hc]; exact getD0_mem hj2)
    by_cases hm : (pending ++ s).length ≤ c.max_line_length
    · -- still under the limit: this call reports need-more, scan resumes
      have hw : windowFree c (pending ++ s) := by
        intro j hj1 hj2
        unfold eolWindow at hj2
        exact hLbyte j (by omega) (by omega)
      have hdec : decode c (pending ++ s)
          = ({ c with next_line_index := (pending ++ s).length }, pending ++ s, .ok none) := by
        rcases hline with hl | hl | hl
        · rw [decode_eq_telegram hl]
          exact decodeLines_scan_none hw hm
        · rw [decode_eq_params hl]
          exact decodeLines_scan_none hw hm
        · rw [decode_eq_kvlines hl]
          exact decodeLines_scan_none hw hm
      unfold feed
      simp only [hdec]
      have hres := ih { c with next_line_index := (pending ++ s).length } (pending ++ s)
        L suffix hline rfl hm hLfree hLlen hstream'
      simp only [hres]
    · -- the unterminated line now exceeds the limit: BadFormat
      have hw : windowFree c (pending ++ s) := by
        intro j hj1 hj2
        unfold eolWindow at hj2
        exact hLbyte j (by omega) (by omega)
      have hdec : decode c (pending ++ s)
          = (c, pending ++ s, .error (.BadFormat "Exceeded maximum line length.")) := by
        rcases hline with hl | hl | hl
        · rw [decode_eq_telegram hl]
          exact decodeLines_scan_err hw (by omega)
        · rw [decode_eq_params hl]
          exact decodeLines_scan_err hw (by omega)
        · rw [decode_eq_kvlines hl]
          exact decodeLines_scan_err hw (by omega)
      unfold feed
      simp only [hdec]

theorem flatten_ne_nil {segs : List (List Nat)} (hs : segs ≠ [])
    (hne : ∀ s ∈ segs, s ≠ []) : segs.flatten ≠ [] := by
  cases segs with
  | nil => exact absurd rfl hs
  | cons a t =>
    have ha : a ≠ [] := hne a (by simp)
    simp only [List.flatten_cons, ne_eq, List.append_eq_nil, not_and]
    intro h'
    exact absurd h' ha

theorem codec_cursor_eta {c : Codec} (h : c.next_line_index = 0) :
    ({ c with next_line_index := 0 } : Codec) = c := by
  cases c
  simp_all

/-- The chunked mode reports completion through a zero remaining count;
every other output is a completion value outright. -/
def isCompletionValue : Input → Bool
  | .Chunk _ r => r == 0
  | _ => true

theorem hmContains_insert (l : List (List Nat × List Nat)) (k v : List Nat) :
    hmContains (hmInsert l k v) k = true := by
  induction l with
  | nil => simp [hmInsert, hmContains]
  | cons a t ih =>
    rcases a with ⟨k₀, v₀⟩
    by_cases hk : k₀ = k
    · simp [hmInsert, hmContains, hk]
    · simp [hmInsert, hmContains, hk, ih]

theorem hmInsert_lookup (l : List (List Nat × List Nat)) (k v : List Nat) :
    hmLookup (hmInsert l k v) k = some v := by
  induction l with
  | nil => simp [hmInsert, hmLookup]
  | cons a t ih =>
    rcases a with ⟨k₀, v₀⟩
    by_cases hk : k₀ = k
    · simp [hmInsert, hmLookup, hk]
    · simp [hmInsert, hmLookup, hk, ih]

theorem hmInsert_length_of_contains {l : List (List Nat × List Nat)} {k : List Nat}
    (v : List Nat) (h : hmContains l k = true) : (hmInsert l k v).length = l.length := by
  induction l with
  | nil => simp [hmContains] at h
  | cons a t ih =>
    rcases a with ⟨k₀, v₀⟩
    by_cases hk : k₀ = k
    · simp [hmInsert, hk]
    · simp only [hmContains, Bool.or_eq_true, decide_eq_true_eq] at h
      rcases h with h | h
      · exact absurd h hk
      · simp [hmInsert, hk, ih h]

/-- Distinguishes a serialization-kind error from every other outcome. -/
def isSerializeError : Except Err (List Nat) → Bool
  | .error (.SerializeError _) => true
  | _ => false

/-! ## Claim theorems -/

/-- C2: the line scanner searches exactly the window
`[next_line_index, min(max_line_length+1, buf.length))`: if the first
`\n` of the window sits at absolute offset `o` it resets the cursor to
0 and returns the line length `o+1`; if the window has no `\n` and the
buffer is longer than the limit it fails with `BadFormat`; otherwise it
stores the searched length `min(max_line_length+1, buf.length)` as the
new cursor and reports "need more data". -/
theorem C2_line_scanner_spec (c : Codec) (buf : List Nat) :
    (∀ o, foundAt c buf o →
      c.get_eol_idx buf = ({ c with next_line_index := 0 }, .ok (some (o + 1))))
    ∧ (windowFree c buf → c.max_line_length < buf.length →
      c.get_eol_idx buf = (c, .error (.BadFormat "Exceeded maximum line length.")))
    ∧ (windowFree c buf → buf.length ≤ c.max_line_length →
      c.get_eol_idx buf
        = ({ c with next_line_index := min (c.max_line_length + 1) buf.length }, .ok none)) := by
  refine ⟨fun o ho => get_eol_eq_found ho, fun hw hl => get_eol_eq_overlong hw hl,
    fun hw hl => ?_⟩
  rw [get_eol_eq_needmore hw hl]
  have : min (c.max_line_length + 1) buf.length = buf.length := by omega
  rw [this]

theorem C2_line_scanner_spec_witness :
    (Codec.new_with_max_length 5).get_eol_idx [97, 10, 98]
      = ({ Codec.new_with_max_length 5 with next_line_index := 0 }, .ok (some 2)) :=
  (C2_line_scanner_spec (Codec.new_with_max_length 5) [97, 10, 98]).1 1
    ⟨by decide, by decide, by decide, by
      intro j h1 h2
      have hj : j = 0 := by omega
      subst hj
      decide⟩

/-- C3 (amended): `expect_bytes`, `expect_bytesmut`, `expect_file`,
`expect_writer` and `skip` reject a zero size with `InvalidSize` and
leave the codec unchanged; `expect_chunks`, whose Rust signature
returns `()` and performs no size check, unconditionally switches to
chunked mode with the given remaining count — including size zero. -/
theorem C3_zero_size_config (c : Codec) (pathname : List Nat) :
    c.expect_bytes 0 = (c, some (.InvalidSize "The size must not be zero"))
    ∧ c.expect_bytesmut 0 = (c, some (.InvalidSize "The size must not be zero"))
    ∧ c.expect_file pathname 0 = (c, some (.InvalidSize "The size must not be zero"))
    ∧ c.expect_writer 0 = (c, some (.InvalidSize "The size must not be zero"))
    ∧ c.skip 0 = (c, some (.InvalidSize "The size must not be zero"))
    ∧ ∀ size, c.expect_chunks size = { c with state := .Chunks, bin_remain := size } := by
  refine ⟨?_, ?_, ?_, ?_, ?_, fun size => rfl⟩ <;> rfl

/-- C3 counterexample: `expect_chunks` with size 0 returns no error (its
result type has no error component) and does change the codec state:
the mode flips from `Telegram` to `Chunks`. -/
theorem C3_zero_size_config_counterexample :
    (Codec.expect_chunks Codec.new 0).state = CodecState.Chunks
    ∧ Codec.new.state = CodecState.Telegram
    ∧ Codec.expect_chunks Codec.new 0 ≠ Codec.new := by
  decide

/-- C8: inserting an existing key into the unique-key `Params` map
succeeds again, replaces the value and adds no duplicate entry; the
ordered `KVLines` list appends unconditionally with no validation; and
decoding `"a 1\na 2\n\n"` in ordered-list mode yields exactly
`[(a,1), (a,2)]` in order. -/
theorem C8_duplicate_keys (p : Params) (k v v₂ : List Nat) :
    (∀ p₁, Params.add_param p k v = .ok p₁ →
      Params.add_param p₁ k v₂ = .ok ⟨hmInsert p₁.hm k v₂⟩
        ∧ hmLookup (hmInsert p₁.hm k v₂) k = some v₂
        ∧ (hmInsert p₁.hm k v₂).length = p₁.hm.length)
    ∧ (∀ l : KVLines, KVLines.append l k v = ⟨l.lines ++ [(k, v)]⟩)
    ∧ decode { Codec.new with state := .KVLines } [97, 32, 49, 10, 97, 32, 50, 10, 10]
        = (Codec.new, [], .ok (some (.KVLines ⟨[([97], [49]), ([97], [50])]⟩))) := by
  refine ⟨fun p₁ h => ?_, fun l => rfl, by decide⟩
  unfold Params.add_param at h ⊢
  rcases hv : validate_param_key k with e | u
  · rw [hv] at h
    simp at h
  · simp only [hv] at h ⊢
    injection h with h
    refine ⟨trivial, hmInsert_lookup .., hmInsert_length_of_contains v₂ ?_⟩
    rw [← h]
    exact hmContains_insert ..

theorem C8_duplicate_keys_witness :
    Params.add_param ⟨[([97], [49])]⟩ [97] [50] = .ok ⟨[([97], [50])]⟩
    ∧ hmLookup (hmInsert ([([97], [49])] : List (List Nat × List Nat)) [97] [50]) [97]
        = some [50]
    ∧ (hmInsert ([([97], [49])] : List (List Nat × List Nat)) [97] [50]).length = 1 := by
  have h := (C8_duplicate_keys ⟨[]⟩ [97] [49] [50]).1 ⟨[([97], [49])]⟩ (by decide)
  exact ⟨h.1, h.2.1, h.2.2⟩

/-- C9 (amended): `Telegram::encoder_write` on a record with no topic
fails with `SerializeError`, while `Telegram::serialize` on the same
record fails with `BadFormat("Missing heading")`; with a topic set,
both produce the topic line, the parameter lines `key SP value LF`,
and a terminating empty line. -/
theorem C9_encode_missing_topic (tg : Telegram) (buf : List Nat) :
    (tg.topic = none →
      Telegram.encoder_write tg buf = .error (.SerializeError "Missing Telegram topic")
        ∧ Telegram.serialize tg = .error (.BadFormat "Missing heading"))
    ∧ (∀ t, tg.topic = some t →
      Telegram.encoder_write tg buf = .ok (buf ++ t ++ [10] ++ kvWire tg.params.hm ++ [10])
        ∧ Telegram.serialize tg = .ok (t ++ [10] ++ kvWire tg.params.hm ++ [10])) := by
  constructor
  · intro h
    unfold Telegram.encoder_write Telegram.serialize
    rw [h]
    exact ⟨rfl, rfl⟩
  · intro t h
    unfold Telegram.encoder_write Telegram.serialize
    rw [h]
    exact ⟨rfl, rfl⟩

theorem C9_encode_missing_topic_witness :
    Telegram.encoder_write ⟨none, ⟨[]⟩⟩ [] = .error (.SerializeError "Missing Telegram topic")
    ∧ Telegram.serialize ⟨some [84], ⟨[([107], [118])]⟩⟩
        = .ok ([84] ++ [10] ++ kvWire [([107], [118])] ++ [10]) :=
  ⟨((C9_encode_missing_topic ⟨none, ⟨[]⟩⟩ []).1 rfl).1,
    ((C9_encode_missing_topic ⟨some [84], ⟨[([107], [118])]⟩⟩ []).2 [84] rfl).2⟩

/-- C9 counterexample: the `serialize` entry point of a topicless
record does not return a `SerializeError` — it returns
`BadFormat("Missing heading")`. -/
theorem C9_encode_missing_topic_counterexample :
    Telegram.serialize ⟨none, ⟨[]⟩⟩ = .error (.BadFormat "Missing heading")
    ∧ isSerializeError (Telegram.serialize ⟨none, ⟨[]⟩⟩) = false := by
  decide

/-- C10: in all six binary-transfer states, a decode call on an empty
input buffer returns "need more data" and leaves the codec — mode tag,
remaining count, accumulation buffer, pathname and sink handle —
exactly unchanged. -/
theorem C10_binary_empty_buffer (c : Codec)
    (hs : c.state = .Chunks ∨ c.state = .Bytes ∨ c.state = .BytesMut ∨ c.state = .File
      ∨ c.state = .Writer ∨ c.state = .Skip) :
    decode c [] = (c, [], .ok none) :=
  decode_binary_empty hs

theorem C10_binary_empty_buffer_witness :
    decode { Codec.new with state := .Skip, bin_remain := 5 } []
      = ({ Codec.new with state := .Skip, bin_remain := 5 }, [], .ok none) :=
  C10_binary_empty_buffer { Codec.new with state := .Skip, bin_remain := 5 } (by tauto)

/-- C6: whenever a decode call in a non-`Telegram` state produces that
state's completion value (for chunked mode, a chunk with remaining
count 0; any completed value otherwise), the codec has reverted to the
`Telegram` state, with no reset by the application. -/
theorem C6_auto_reversion (c : Codec) (buf : List Nat) (c' : Codec) (b' : List Nat) (v : Input)
    (hnt : c.state ≠ .Telegram)
    (h : decode c buf = (c', b', .ok (some v)))
    (hv : isCompletionValue v = true) :
    c'.state = .Telegram := by
  obtain ⟨hst, rest⟩ : ∃ s, c.state = s := ⟨c.state, rfl⟩
  cases hst
  case Telegram => exact absurd rest hnt
  case Params =>
    rw [decode_eq_params rest] at h
    exact decodeLines_some_state (fun _ => rfl) _ _ _ _ _ _ h
  case KVLines =>
    rw [decode_eq_kvlines rest] at h
    exact decodeLines_some_state (fun _ => rfl) _ _ _ _ _ _ h
  case Chunks =>
    by_cases hb : buf = []
    · subst hb
      rw [decode_binary_empty (by tauto)] at h
      simp at h
    · by_cases hge : c.bin_remain ≤ buf.length
      · rw [decode_chunks_done rest hb hge] at h
        obtain ⟨h1, -⟩ := Prod.mk.injEq .. ▸ h
        rw [← h1]
      · rw [decode_chunks_more rest hb (by omega)] at h
        have hveq := congrArg (fun t => t.2.2) h
        simp only at hveq
        injection hveq with hveq
        injection hveq with hveq
        rw [← hveq] at hv
        simp only [isCompletionValue] at hv
        simp only [beq_iff_eq] at hv
        omega
  case Bytes =>
    by_cases hb : buf = []
    · subst hb
      rw [decode_binary_empty (by tauto)] at h
      simp at h
    · by_cases hge : c.bin_remain ≤ buf.length
      · rw [decode_bytes_done rest hb hge] at h
        obtain ⟨h1, -⟩ := Prod.mk.injEq .. ▸ h
        rw [← h1]
      · rw [decode_bytes_more rest hb (by omega)] at h
        simp at h
  case BytesMut =>
    by_cases hb : buf = []
    · subst hb
      rw [decode_binary_empty (by tauto)] at h
      simp at h
    · by_cases hge : c.bin_remain ≤ buf.length
      · rw [decode_bytesmut_done rest hb hge] at h
        obtain ⟨h1, -⟩ := Prod.mk.injEq .. ▸ h
        rw [← h1]
      · rw [decode_bytesmut_more rest hb (by omega)] at h
        simp at h
  case Skip =>
    by_cases hb : buf = []
    · subst hb
      rw [decode_binary_empty (by tauto)] at h
      simp at h
    · by_cases hge : c.bin_remain ≤ buf.length
      · rw [decode_skip_done rest hb hge] at h
        obtain ⟨h1, -⟩ := Prod.mk.injEq .. ▸ h
        rw [← h1]
      · rw [decode_skip_more rest hb (by omega)] at h
        simp at h
  case File =>
    by_cases hb : buf = []
    · subst hb
      rw [decode_binary_empty (by tauto)] at h
      simp at h
    · have h1 : buf.isEmpty = false := by simpa [List.isEmpty_iff] using hb
      unfold decode at h
      rw [rest] at h
      simp only [h1, Bool.false_eq_true, if_false] at h
      rcases hwv : c.writer with _ | u <;> simp only [hwv] at h <;>
        split_ifs at h with hrem
      · simp at h
      · try simp only [rest] at h
        rcases hp : c.pathname with _ | pname <;> simp only [hp] at h
        · simp at h
        · obtain ⟨h2, -⟩ := Prod.mk.injEq .. ▸ h
          rw [← h2]
      · simp at h
      · try simp only [rest] at h
        rcases hp : c.pathname with _ | pname <;> simp only [hp] at h
        · simp at h
        · obtain ⟨h2, -⟩ := Prod.mk.injEq .. ▸ h
          rw [← h2]
  case Writer =>
    by_cases hb : buf = []
    · subst hb
      rw [decode_binary_empty (by tauto)] at h
      simp at h
    · have h1 : buf.isEmpty = false := by simpa [List.isEmpty_iff] using hb
      unfold decode at h
      rw [rest] at h
      simp only [h1, Bool.false_eq_true, if_false] at h
      rcases hwv : c.writer with _ | u <;> simp only [hwv] at h <;>
        split_ifs at h with hrem
      · simp at h
      · try simp only [rest] at h
        obtain ⟨h2, -⟩ := Prod.mk.injEq .. ▸ h
        rw [← h2]
      · simp at h
      · try simp only [rest] at h
        obtain ⟨h2, -⟩ := Prod.mk.injEq .. ▸ h
        rw [← h2]

theorem C6_auto_reversion_witness :
    ({ Codec.new with state := .Params } : Codec).state = CodecState.Telegram
      ∨ (decode { Codec.new with state := .Params } [10] = (Codec.new, [], .ok (some (.Params ⟨[]⟩)))
        ∧ Codec.new.state = CodecState.Telegram) :=
  Or.inr ⟨by decide, C6_auto_reversion { Codec.new with state := .Params } [10] Codec.new []
    (.Params ⟨[]⟩) (by decide) (by decide) (by decide)⟩

/-- C5 (amended): in the default `Telegram` mode, a non-empty line with
the topic still unset sets the topic, failing the whole decode if the
topic is invalid; a later non-empty line containing a space is split at
the first space into key and value, the key is validated (non-empty,
alphanumeric or ASCII punctuation), the whole decode failing on an
invalid key, and otherwise the pair is inserted into the parameter map;
a non-empty line with no space is silently ignored; and an empty line
completes the frame, returning the accumulated record and replacing it
with a fresh empty one. -/
theorem C5_topic_record_lines (c : Codec) (line : List Nat) :
    (c.tg.topic = none →
      (validate_topic line = .ok () →
        decode_telegram_line c line = .ok { c with tg := { c.tg with topic := some line } })
      ∧ (∀ e, validate_topic line = .error e → decode_telegram_line c line = .error e))
    ∧ (∀ idx, c.tg.topic ≠ none → listPos (fun b => b == 32) line = some idx →
      (validate_param_key (line.take idx) = .ok () →
        decode_telegram_line c line
          = .ok { c with tg := { c.tg with
              params := ⟨hmInsert c.tg.params.hm (line.take idx) ((line.drop idx).drop 1)⟩ } })
      ∧ (∀ e, validate_param_key (line.take idx) = .error e →
        decode_telegram_line c line = .error e))
    ∧ (c.tg.topic ≠ none → listPos (fun b => b == 32) line = none →
      decode_telegram_line c line = .ok c)
    ∧ (∀ rest, c.state = .Telegram → c.next_line_index = 0 →
      decode c (10 :: rest) = ({ c with tg := Telegram.new }, rest, .ok (some (.Telegram c.tg)))) := by
  refine ⟨?_, ?_, ?_, ?_⟩
  · intro ht
    constructor
    · intro hok
      unfold decode_telegram_line Telegram.set_topic
      simp only [ht, Option.isNone_none, if_true, hok]
    · intro e herr
      unfold decode_telegram_line Telegram.set_topic
      simp only [ht, Option.isNone_none, if_true, herr]
  · intro idx ht hpos
    obtain ⟨t, ht'⟩ := Option.ne_none_iff_exists'.mp ht
    constructor
    · intro hok
      unfold decode_telegram_line Params.add_param
      simp only [ht', Option.isNone_some, Bool.false_eq_true, if_false, hpos, hok]
    · intro e herr
      unfold decode_telegram_line Params.add_param
      simp only [ht', Option.isNone_some, Bool.false_eq_true, if_false, hpos, herr]
  · intro ht hpos
    obtain ⟨t, ht'⟩ := Option.ne_none_iff_exists'.mp ht
    unfold decode_telegram_line
    simp only [ht', Option.isNone_some, Bool.false_eq_true, if_false, hpos]
  · intro rest hst hc0
    rw [decode_eq_telegram hst]
    have hfound : foundAt c (10 :: rest) 0 :=
      ⟨by omega, by unfold eolWindow; simp only [List.length_cons]; omega, rfl,
        fun j hj1 hj2 => absurd hj2 (by omega)⟩
    rw [decodeLines_succ]
    simp only [get_eol_eq_found hfound]
    have hceta : ({ c with next_line_index := 0 } : Codec) = c := codec_cursor_eta hc0
    rw [hceta]
    rfl

theorem C5_topic_record_lines_witness :
    decode { Codec.new with tg := ⟨some [84], ⟨[]⟩⟩ } [10, 99]
      = ({ Codec.new with tg := Telegram.new }, [99],
        .ok (some (.Telegram ⟨some [84], ⟨[]⟩⟩))) :=
  (C5_topic_record_lines { Codec.new with tg := ⟨some [84], ⟨[]⟩⟩ } []).2.2.2 [99] rfl rfl

/-- C5 counterexample: with topic `T` already set, the line `" x"`
(first space at index 0, hence an empty key) does not insert the pair
`("", "x")` — the whole decode fails with `BadFormat("Empty or broken
key")`, leaving the trailing bytes unconsumed. -/
theorem C5_topic_record_lines_counterexample :
    decode Codec.new [84, 10, 32, 120, 10, 10]
      = ({ Codec.new with tg := ⟨some [84], ⟨[]⟩⟩ }, [10],
        .error (.BadFormat "Empty or broken key")) := by
  decide

/-- C4 (amended): a line whose length excluding the terminating `\n`
exceeds the configured maximum (equivalently, including the terminator
exceeds maximum + 1) makes decoding fail with `BadFormat` in every
line-oriented mode and under every way of splitting the input bytes
across decode calls. -/
theorem C4_overlong_line (c : Codec) (L suffix : List Nat) (segs : List (List Nat))
    (hline : c.state = .Telegram ∨ c.state = .Params ∨ c.state = .KVLines)
    (hc0 : c.next_line_index = 0)
    (hfree : 10 ∉ L)
    (hlen : c.max_line_length < L.length)
    (hstream : segs.flatten = L ++ suffix) :
    feed c [] segs = .error (.BadFormat "Exceeded maximum line length.") :=
  feed_overlong segs c [] L suffix hline (by simpa using hc0) (by simp)
    hfree hlen (by simpa using hstream)

theorem C4_overlong_line_witness :
    feed (Codec.new_with_max_length 2) [] [[97, 98], [99, 10]]
      = .error (.BadFormat "Exceeded maximum line length.") :=
  C4_overlong_line (Codec.new_with_max_length 2) [97, 98, 99] [10] [[97, 98], [99, 10]]
    (by tauto) rfl (by decide) (by decide) (by decide)

/-- C4 counterexample: with maximum line length 2, the frame
`"ab\n\n"` contains the line `"ab\n"` of length 3 including its
terminator — exceeding the maximum — yet it decodes successfully into
the topic record `ab` with no `BadFormat` error. -/
theorem C4_overlong_line_counterexample :
    decode (Codec.new_with_max_length 2) [97, 98, 10, 10]
      = (Codec.new_with_max_length 2, [],
        .ok (some (.Telegram ⟨some [97, 98], ⟨[]⟩⟩))) := by
  decide

/-- C1 (amended): for every decoder configuration except chunked mode,
splitting an input whose one-shot decode completes a value and consumes
every byte into any sequence of nonempty segments, feeding them one
decode call at a time, makes every intermediate call report "need more
data" and the final call return exactly the one-shot completed value and
state.  In chunked mode the calls instead emit one chunk per segment —
the consumed bytes with the updated remaining count — so the
concatenation of the emitted chunks is the full payload and the final
chunk carries remaining count zero. -/
theorem C1_resumability :
    (∀ (c : Codec) (segs : List (List Nat)) (c' : Codec) (v : Input),
      c.state ≠ .Chunks → c.next_line_index = 0 →
      (∀ s ∈ segs, s ≠ []) → segs ≠ [] →
      decode c segs.flatten = (c', [], .ok (some v)) →
      feed c [] segs = .ok (c', [], List.replicate (segs.length - 1) none ++ [some v]))
    ∧ (∀ (c : Codec) (segs : List (List Nat)),
      c.state = .Chunks → (∀ s ∈ segs, s ≠ []) → segs ≠ [] →
      c.bin_remain = segs.flatten.length →
      feed c [] segs = .ok ({ c with state := .Telegram, bin_remain := 0 },
        [], chunkOutputs c.bin_remain segs)) := by
  constructor
  · intro c segs c' v hch hc0 hne hs h
    exact feed_ok segs c [] c' v hne hs hch (fun _ => by omega) (by simpa using h)
  · intro c segs hst hne hs hrem
    exact feed_chunks segs c hst hne hs hrem

theorem C1_resumability_witness :
    feed Codec.new [] [[104, 105, 10], [10]]
      = .ok (Codec.new, [],
        List.replicate 1 none ++ [some (.Telegram ⟨some [104, 105], ⟨[]⟩⟩)]) :=
  C1_resumability.1 Codec.new [[104, 105, 10], [10]] Codec.new
    (.Telegram ⟨some [104, 105], ⟨[]⟩⟩) (by decide) rfl (by decide) (by decide) (by decide)

/-- C1 counterexample: a 2-byte payload in chunked mode.  Submitted in
one call the completed value is `Chunk [49,50] 0`; split into two
segments the intermediate call already returns a value (a chunk, not
"need more data") and the final completed value is `Chunk [50] 0` —
not the same completed value. -/
theorem C1_resumability_counterexample :
    feed (Codec.expect_chunks Codec.new 2) [] [[49, 50]]
      = .ok (Codec.new, [], [some (.Chunk [49, 50] 0)])
    ∧ feed (Codec.expect_chunks Codec.new 2) [] [[49], [50]]
      = .ok (Codec.new, [], [some (.Chunk [49] 1), some (.Chunk [50] 0)])
    ∧ (some (Input.Chunk [49, 50] 0) : Option Input) ≠ some (.Chunk [50] 0) := by
  decide

theorem chunkOutputs_last (s : List Nat) :
    ∀ (pre : List (List Nat)) (remain : Nat), remain = (pre ++ [s]).flatten.length →
    (chunkOutputs remain (pre ++ [s])).getLast? = some (some (.Chunk s 0)) := by
  intro pre
  induction pre with
  | nil =>
    intro remain h
    simp only [List.nil_append, List.flatten_cons, List.flatten_nil, List.append_nil] at h
    simp [chunkOutputs, h]
  | cons a t ih =>
    intro remain h
    have hx : (a :: t) ++ [s] = a :: (t ++ [s]) := rfl
    rw [hx, chunkOutputs]
    have htail := ih (remain - a.length) (by
      simp only [List.cons_append, List.flatten_cons, List.length_append] at h
      omega)
    rw [← htail]
    have hne : chunkOutputs (remain - a.length) (t ++ [s]) ≠ [] := by
      cases t <;> simp [chunkOutputs]
    cases hcs : chunkOutputs (remain - a.length) (t ++ [s]) with
    | nil => exact absurd hcs hne
    | cons b r => exact List.getLast?_cons_cons

/-- C7: binary-transfer conservation.  (1) In every binary mode each
decode call consumes min(remaining, available) input bytes and
decrements the remaining count by that amount.  (2) In chunked mode a
payload of S bytes delivered across arbitrary nonempty segments is
emitted as one chunk per segment — segment data with updated remaining
count — and the final chunk reports zero remaining.  (3)–(6) In
Bytes/BytesMut mode the completed value collects exactly the S
delivered bytes; in File/Writer mode exactly the S delivered bytes are
written to the sink; in Skip mode the S bytes are discarded and only a
completion marker is returned. -/
theorem C7_binary_conservation :
    (∀ (c : Codec) (buf : List Nat),
      (c.state = .Chunks ∨ c.state = .Bytes ∨ c.state = .BytesMut
        ∨ c.state = .File ∨ c.state = .Writer ∨ c.state = .Skip) →
      (c.state = .File ∨ c.state = .Writer → c.writer = some ()) →
      buf ≠ [] →
      ((decode c buf).1.bin_remain = c.bin_remain - min c.bin_remain buf.length
        ∧ (decode c buf).2.1 = buf.drop (min c.bin_remain buf.length)))
    ∧ (∀ (c : Codec) (pre : List (List Nat)) (s : List Nat),
      c.state = .Chunks → (∀ x ∈ pre ++ [s], x ≠ []) →
      c.bin_remain = (pre ++ [s]).flatten.length →
      feed c [] (pre ++ [s]) = .ok ({ c with state := .Telegram, bin_remain := 0 },
          [], chunkOutputs c.bin_remain (pre ++ [s]))
        ∧ (chunkOutputs c.bin_remain (pre ++ [s])).getLast?
            = some (some (.Chunk s 0)))
    ∧ (∀ (c : Codec) (segs : List (List Nat)),
      c.state = .Bytes → c.buf = [] → (∀ x ∈ segs, x ≠ []) → segs ≠ [] →
      c.bin_remain = segs.flatten.length →
      feed c [] segs = .ok ({ c with state := .Telegram, buf := [], bin_remain := 0 },
        [], List.replicate (segs.length - 1) none ++ [some (.Bytes segs.flatten)]))
    ∧ (∀ (c : Codec) (segs : List (List Nat)),
      c.state = .BytesMut → c.buf = [] → (∀ x ∈ segs, x ≠ []) → segs ≠ [] →
      c.bin_remain = segs.flatten.length →
      feed c [] segs = .ok ({ c with state := .Telegram, buf := [], bin_remain := 0 },
        [], List.replicate (segs.length - 1) none ++ [some (.BytesMut segs.flatten)]))
    ∧ (∀ (c : Codec) (segs : List (List Nat)) (p : List Nat),
      c.state = .File → c.writer = some () → c.pathname = some p →
      (∀ x ∈ segs, x ≠ []) → segs ≠ [] → c.bin_remain = segs.flatten.length →
      feed c [] segs = .ok
        ({ c with
            written := c.written ++ segs.flatten
            bin_remain := 0
            writer := none
            pathname := none
            state := .Telegram },
          [], List.replicate (segs.length - 1) none ++ [some (.File p)]))
    ∧ (∀ (c : Codec) (segs : List (List Nat)),
      c.state = .Writer → c.writer = some () →
      (∀ x ∈ segs, x ≠ []) → segs ≠ [] → c.bin_remain = segs.flatten.length →
      feed c [] segs = .ok
        ({ c with
            written := c.written ++ segs.flatten
            bin_remain := 0
            writer := none
            state := .Telegram },
          [], List.replicate (segs.length - 1) none ++ [some .WriteDone]))
    ∧ (∀ (c : Codec) (segs : List (List Nat)),
      c.state = .Skip → (∀ x ∈ segs, x ≠ []) → segs ≠ [] →
      c.bin_remain = segs.flatten.length →
      feed c [] segs = .ok ({ c with state := .Telegram, bin_remain := 0 },
        [], List.replicate (segs.length - 1) none ++ [some .SkipDone])) := by
  refine ⟨?_, ?_, ?_, ?_, ?_, ?_, ?_⟩
  · intro c buf hbin hw hb
    rcases Nat.lt_or_ge buf.length c.bin_remain with hlt | hge
    · have hmin : min c.bin_remain buf.length = buf.length := by omega
      rcases hbin with hs | hs | hs | hs | hs | hs
      · rw [decode_chunks_more hs hb hlt]
        exact ⟨by simp [hmin], by simp [hmin]⟩
      · rw [decode_bytes_more hs hb hlt]
        exact ⟨by simp [hmin], by simp [hmin]⟩
      · rw [decode_bytesmut_more hs hb hlt]
        exact ⟨by simp [hmin], by simp [hmin]⟩
      · rw [decode_sink_more (Or.inl hs) (hw (Or.inl hs)) hb hlt]
        exact ⟨by simp [hmin], by simp [hmin]⟩
      · rw [decode_sink_more (Or.inr hs) (hw (Or.inr hs)) hb hlt]
        exact ⟨by simp [hmin], by simp [hmin]⟩
      · rw [decode_skip_more hs hb hlt]
        exact ⟨by simp [hmin], by simp [hmin]⟩
    · have hmin : min c.bin_remain buf.length = c.bin_remain := by omega
      rcases hbin with hs | hs | hs | hs | hs | hs
      · rw [decode_chunks_done hs hb hge]
        exact ⟨by simp [hmin], by simp [hmin]⟩
      · rw [decode_bytes_done hs hb hge]
        exact ⟨by simp [hmin], by simp [hmin]⟩
      · rw [decode_bytesmut_done hs hb hge]
        exact ⟨by simp [hmin], by simp [hmin]⟩
      · rcases hp : c.pathname with _ | pname
        · rw [decode_file_done_nopath hs (hw (Or.inl hs)) hp hb hge]
          exact ⟨by simp [hmin], by simp [hmin]⟩
        · rw [decode_file_done hs (hw (Or.inl hs)) hp hb hge]
          exact ⟨by simp [hmin], by simp [hmin]⟩
      · rw [decode_writer_done hs (hw (Or.inr hs)) hb hge]
        exact ⟨by simp [hmin], by simp [hmin]⟩
      · rw [decode_skip_done hs hb hge]
        exact ⟨by simp [hmin], by simp [hmin]⟩
  · intro c pre s hst hne hrem
    exact ⟨feed_chunks (pre ++ [s]) c hst hne (by simp) hrem,
      chunkOutputs_last s pre c.bin_remain hrem⟩
  · intro c segs hst hbuf hne hs hrem
    have hfl := flatten_ne_nil hs hne
    have hone : decode c ([] ++ segs.flatten)
        = ({ c with state := .Telegram, buf := [], bin_remain := 0 }, [],
          .ok (some (.Bytes segs.flatten))) := by
      rw [List.nil_append, decode_bytes_done hst hfl (by omega), hbuf, hrem]
      simp
    exact feed_ok segs c [] _ _ hne hs (by rw [hst]; simp)
      (fun hl => absurd hl (by rw [hst]; exact isLineState_not_binary (by simp))) hone
  · intro c segs hst hbuf hne hs hrem
    have hfl := flatten_ne_nil hs hne
    have hone : decode c ([] ++ segs.flatten)
        = ({ c with state := .Telegram, buf := [], bin_remain := 0 }, [],
          .ok (some (.BytesMut segs.flatten))) := by
      rw [List.nil_append, decode_bytesmut_done hst hfl (by omega), hbuf, hrem]
      simp
    exact feed_ok segs c [] _ _ hne hs (by rw [hst]; simp)
      (fun hl => absurd hl (by rw [hst]; exact isLineState_not_binary (by simp))) hone
  · intro c segs p hst hw hp hne hs hrem
    have hfl := flatten_ne_nil hs hne
    have hone : decode c ([] ++ segs.flatten)
        = ({ c with
            written := c.written ++ segs.flatten
            bin_remain := 0
            writer := none
            pathname := none
            state := .Telegram }, [], .ok (some (.File p))) := by
      rw [List.nil_append, decode_file_done hst hw hp hfl (by omega), hrem]
      simp
    exact feed_ok segs c [] _ _ hne hs (by rw [hst]; simp)
      (fun hl => absurd hl (by rw [hst]; exact isLineState_not_binary (by simp))) hone
  · intro c segs hst hw hne hs hrem
    have hfl := flatten_ne_nil hs hne
    have hone : decode c ([] ++ segs.flatten)
        = ({ c with
            written := c.written ++ segs.flatten
            bin_remain := 0
            writer := none
            state := .Telegram }, [], .ok (some .WriteDone)) := by
      rw [List.nil_append, decode_writer_done hst hw hfl (by omega), hrem]
      simp
    exact feed_ok segs c [] _ _ hne hs (by rw [hst]; simp)
      (fun hl => absurd hl (by rw [hst]; exact isLineState_not_binary (by simp))) hone
  · intro c segs hst hne hs hrem
    have hfl := flatten_ne_nil hs hne
    have hone : decode c ([] ++ segs.flatten)
        = ({ c with state := .Telegram, bin_remain := 0 }, [],
          .ok (some .SkipDone)) := by
      rw [List.nil_append, decode_skip_done hst hfl (by omega), hrem]
      simp
    exact feed_ok segs c [] _ _ hne hs (by rw [hst]; simp)
      (fun hl => absurd hl (by rw [hst]; exact isLineState_not_binary (by simp))) hone

theorem C7_binary_conservation_witness :
    (decode (Codec.expect_chunks Codec.new 3) [49, 50]).1.bin_remain
        = (Codec.expect_chunks Codec.new 3).bin_remain
          - min (Codec.expect_chunks Codec.new 3).bin_remain ([49, 50] : List Nat).length
      ∧ (decode (Codec.expect_chunks Codec.new 3) [49, 50]).2.1
        = ([49, 50] : List Nat).drop
          (min (Codec.expect_chunks Codec.new 3).bin_remain ([49, 50] : List Nat).length) :=
  C7_binary_conservation.1 (Codec.expect_chunks Codec.new 3) [49, 50]
    (by decide) (by decide) (by decide)
